import Mathlib

/-!
# Verification of the ASTM phantom test measurement core

A shallow embedding, in Lean 4, of the measurement/statistics engine of the
`SlicerAstmPhantomTest` repository (files `Utils.py`, `Measurements.py`,
`Phantom.py`, `Targets.py` and the rotation-test handlers of
`AstmPhantomTest.py`), together with theorems settling the specification
claims about it.

Embedding conventions:
* 3-D positions are vectors `Fin 3 → ℚ`.  The code stores `float64` numpy
  arrays; we use exact rationals so that every definition is executable and
  decidable.
* Euclidean distances appear in the source only under equalities,
  comparisons, maxima and root-mean-squares.  Since `x ↦ x²` is a strictly
  monotone bijection on the nonnegative reals, the embedding carries the
  *squared* distance `dist2` everywhere: a field named `…2` in a statistics
  record holds the square of the corresponding quantity of the source
  (`span2 = span²`, `rms2 = rms²`, …), and a threshold comparison
  `dist < thresh` of the source becomes `dist2 < thresh²`.
* Python `float('inf')` is `(⊤ : WithTop ℚ)`; a Python exception
  (IndexError/KeyError/ValueError) is `Option.none`.
* The external VTK landmark-transform solver (`vtkLandmarkTransform`) is not
  part of the repository; functions that invoke it are parametrised by the
  transform it returns, and theorems about them carry the solver contract
  stated by the spec (least-squares similarity registration) as a
  hypothesis.
-/

open Matrix

/-- A 3-D position, as stored in the numpy arrays of the source. -/
abbrev Pos := Fin 3 → ℚ

/-- Squared Euclidean distance between two positions.  The source computes
`np.linalg.norm(a - b)`; the embedding carries its square. -/
def dist2 (a b : Pos) : ℚ := (a - b) ⬝ᵥ (a - b)

/-- Componentwise sum of a list of positions (`np.sum` / the running `+=`
of the source). -/
def sumPos (l : List Pos) : Pos := l.foldr (· + ·) 0

/-- Componentwise mean of a list of positions (`np.mean(·, axis=0)`). -/
def centroid (l : List Pos) : Pos := ((l.length : ℚ))⁻¹ • sumPos l

theorem dist2_eq_sum (a b : Pos) : dist2 a b = ∑ i, (a i - b i) ^ 2 := by
  simp [dist2, dotProduct, sq]

theorem dist2_nonneg (a b : Pos) : 0 ≤ dist2 a b := by
  rw [dist2_eq_sum]
  exact Finset.sum_nonneg fun i _ => sq_nonneg _

theorem dist2_eq_zero_iff {a b : Pos} : dist2 a b = 0 ↔ a = b := by
  constructor
  · intro h
    rw [dist2_eq_sum] at h
    funext i
    have hz := (Finset.sum_eq_zero_iff_of_nonneg
      (fun j _ => sq_nonneg (a j - b j))).mp h i (Finset.mem_univ i)
    have := sq_eq_zero_iff.mp hz
    linarith
  · rintro rfl; simp [dist2]

/-!
## Position queue (`Utils.py`, class `PosQueue`)

`queue` holds the most recent positions newest-first (`insert(0, pos)`),
`sum` is the running componentwise sum, `maxsz` the capacity.
-/

structure PosQueue where
  maxsz : ℕ
  queue : List Pos
  sum : Pos

namespace PosQueue

/-- `reset()`: empty queue, zero sum. -/
def reset (q : PosQueue) : PosQueue := { q with queue := [], sum := 0 }

/-- `PosQueue(size)`: constructor calls `reset`. -/
def mk' (size : ℕ) : PosQueue := reset { maxsz := size, queue := [], sum := 0 }

/-- `size()`. -/
def size (q : PosQueue) : ℕ := q.queue.length

/-- `push(pos)`: insert at front, add to the running sum, and if the queue
exceeds capacity pop the oldest element and subtract it from the sum. -/
def push (q : PosQueue) (pos : Pos) : PosQueue :=
  let queue' := pos :: q.queue
  let sum' := q.sum + pos
  if queue'.length > q.maxsz then
    { q with queue := queue'.dropLast,
             sum := sum' - queue'.getLast (List.cons_ne_nil pos q.queue) }
  else
    { q with queue := queue', sum := sum' }

/-- `stride()`: `⊤` (Python `inf`) while the queue is not full, else the
(squared) distance between the newest (`queue[0]`) and the oldest
(`queue[-1]`) stored positions.  `none` models the `IndexError` Python
would raise on an empty queue (only reachable when `maxsz = 0`). -/
def stride (q : PosQueue) : Option (WithTop ℚ) :=
  if q.queue.length < q.maxsz then
    some ⊤
  else
    match q.queue.head?, q.queue.getLast? with
    | some a, some b => some ((dist2 a b : ℚ) : WithTop ℚ)
    | _, _ => none

/-- `avg()`: running sum divided by the current element count. -/
def avg (q : PosQueue) : Pos := ((q.queue.length : ℚ))⁻¹ • q.sum

/-- Pushing a whole list of positions in order. -/
def pushAll (q : PosQueue) (ps : List Pos) : PosQueue := ps.foldl push q

end PosQueue

/-!
### Queue invariants
-/

theorem sumPos_cons (p : Pos) (l : List Pos) : sumPos (p :: l) = p + sumPos l := rfl

theorem sumPos_dropLast_getLast (l : List Pos) (h : l ≠ []) :
    sumPos l = sumPos l.dropLast + l.getLast h := by
  induction l with
  | nil => exact absurd rfl h
  | cons a t ih =>
    cases t with
    | nil => simp [sumPos]
    | cons b t' =>
      have ht : (b :: t') ≠ [] := List.cons_ne_nil _ _
      simp only [List.dropLast_cons₂, sumPos_cons, List.getLast_cons ht, ih ht]
      ring

theorem push_not_full (q : PosQueue) (pos : Pos) (h : q.queue.length < q.maxsz) :
    q.push pos = { q with queue := pos :: q.queue, sum := q.sum + pos } := by
  simp only [PosQueue.push]
  rw [if_neg]
  simp only [List.length_cons]
  omega

theorem push_full (q : PosQueue) (pos : Pos) (h : q.maxsz ≤ q.queue.length) :
    q.push pos =
      { q with
          queue := (pos :: q.queue).dropLast,
          sum := q.sum + pos - (pos :: q.queue).getLast (List.cons_ne_nil _ _) } := by
  simp only [PosQueue.push]
  rw [if_pos]
  simp only [List.length_cons]
  omega

theorem window_slide (p : Pos) (l : List Pos) (N : ℕ) (h : N ≤ l.length) :
    (p :: l.take N).dropLast = (p :: l).take N := by
  cases N with
  | zero => simp
  | succ n =>
    rw [List.dropLast_eq_take]
    have hlen : (p :: l.take (n + 1)).length = (n + 1) + 1 := by
      simp; omega
    rw [hlen]
    simp only [Nat.add_sub_cancel, List.take_succ_cons, List.take_take]
    rw [Nat.min_eq_left (by omega)]

/-- The fundamental sliding-window invariant: after pushing `ps` in order into
a fresh queue of capacity `N`, the queue holds the last `min N ps.length`
pushes newest-first and the running sum is the exact sum of the queue. -/
theorem pushAll_spec (N : ℕ) (ps : List Pos) :
    (PosQueue.pushAll (PosQueue.mk' N) ps).maxsz = N ∧
    (PosQueue.pushAll (PosQueue.mk' N) ps).queue = ps.reverse.take N ∧
    (PosQueue.pushAll (PosQueue.mk' N) ps).sum = sumPos (ps.reverse.take N) := by
  induction ps using List.reverseRecOn with
  | nil =>
    refine ⟨rfl, by simp [PosQueue.pushAll, PosQueue.mk', PosQueue.reset], ?_⟩
    simp [PosQueue.pushAll, PosQueue.mk', PosQueue.reset, sumPos]
  | append_singleton ps p ih =>
    obtain ⟨hm, hq, hs⟩ := ih
    have hstep : PosQueue.pushAll (PosQueue.mk' N) (ps ++ [p]) =
        PosQueue.push (PosQueue.pushAll (PosQueue.mk' N) ps) p := by
      simp [PosQueue.pushAll]
    rw [hstep]
    set q := PosQueue.pushAll (PosQueue.mk' N) ps with hqdef
    have hrev : (ps ++ [p]).reverse = p :: ps.reverse := by simp
    by_cases hlen : ps.length < N
    · -- queue not yet full: no eviction
      have htake : ps.reverse.take N = ps.reverse := by
        apply List.take_of_length_le; simp; omega
      have hql : q.queue.length < q.maxsz := by
        rw [hq, htake, hm]; simp; omega
      rw [push_not_full q p hql]
      have htake2 : (p :: ps.reverse).take N = p :: ps.reverse := by
        apply List.take_of_length_le; simp; omega
      refine ⟨hm, ?_, ?_⟩
      · simp only [hq, htake, hrev, htake2]
      · simp only [hrev, htake2, sumPos_cons, hs, htake]
        abel
    · -- queue full: evict the oldest element
      push_neg at hlen
      have hql : q.queue.length = N := by
        rw [hq]; simp; omega
      have hfull : q.maxsz ≤ q.queue.length := by omega
      rw [push_full q p hfull]
      have hqwin : (p :: q.queue).dropLast = (ps ++ [p]).reverse.take N := by
        rw [hq, window_slide p ps.reverse N (by simp; omega), hrev]
      refine ⟨hm, hqwin, ?_⟩
      rcases Nat.eq_zero_or_pos N with h0 | h0
      · -- capacity 0: queue stays empty
        have hq0 : q.queue = [] := by
          have := hql; rw [h0] at this; exact List.length_eq_zero.mp this
        have hs0 : q.sum = 0 := by
          rw [hs, h0]; simp [sumPos]
        simp only [hq0, h0] at *
        simp only [List.dropLast_single, List.getLast_singleton, hs0]
        simp [sumPos]
      · have hqne : q.queue ≠ [] := by
          intro hnil; rw [hnil] at hql; simp at hql; omega
        have hgl : (p :: q.queue).getLast (List.cons_ne_nil _ _) =
            q.queue.getLast hqne := List.getLast_cons hqne
        have hdl : (p :: q.queue).dropLast = p :: q.queue.dropLast := by
          cases hq2 : q.queue with
          | nil => exact absurd hq2 hqne
          | cons b t => simp [hq2]
        rw [← hqwin, hdl, sumPos_cons, hgl]
        have hsum := sumPos_dropLast_getLast q.queue hqne
        have hq' : q.sum = sumPos q.queue := by rw [hs, hq]
        rw [hq']
        rw [hsum]
        abel

theorem reset_eq_mk (q : PosQueue) : q.reset = PosQueue.mk' q.maxsz := rfl

theorem head?_take {α : Type} (l : List α) (n : ℕ) (hn : 0 < n) :
    (l.take n).head? = l.head? := by
  cases l with
  | nil => simp
  | cons a t =>
    cases n with
    | zero => exact absurd hn (by omega)
    | succ m => simp

/-- **C10** (invariants): after a reset and any sequence of pushes, the queue
holds exactly the `min (number of pushes) capacity` most recent positions
newest-first, the running `sum` field is the componentwise sum of exactly the
queued positions, and `avg()` is the componentwise mean of the queued
positions. -/
theorem posQueue_window_avg (q0 : PosQueue) (ps : List Pos) :
    (PosQueue.pushAll q0.reset ps).queue = ps.reverse.take q0.maxsz ∧
    (PosQueue.pushAll q0.reset ps).sum =
      sumPos (PosQueue.pushAll q0.reset ps).queue ∧
    (PosQueue.pushAll q0.reset ps).avg =
      centroid (PosQueue.pushAll q0.reset ps).queue := by
  rw [reset_eq_mk]
  obtain ⟨hm, hq, hs⟩ := pushAll_spec q0.maxsz ps
  refine ⟨hq, by rw [hs, hq], ?_⟩
  simp only [PosQueue.avg, centroid, hs, hq]

/-- **C2**: `stride()` returns `+∞` while fewer than `N` positions have been
pushed, and once at least `N` have been pushed it returns the (squared)
distance between the most recent push and the `N`-th most recent push. -/
theorem posQueue_stride_spec (N : ℕ) (ps : List Pos) (hN : 0 < N) :
    (ps.length < N → (PosQueue.pushAll (PosQueue.mk' N) ps).stride = some ⊤) ∧
    (∀ h : N ≤ ps.length,
      (PosQueue.pushAll (PosQueue.mk' N) ps).stride =
        some ((dist2 (ps.getLast (by
            intro he; rw [he] at h; simp at h; omega))
          (ps.get ⟨ps.length - N, by omega⟩) : ℚ) : WithTop ℚ)) := by
  obtain ⟨hm, hq, _⟩ := pushAll_spec N ps
  constructor
  · intro hlt
    have hql : (PosQueue.pushAll (PosQueue.mk' N) ps).queue.length <
        (PosQueue.pushAll (PosQueue.mk' N) ps).maxsz := by
      rw [hq, hm]; simp; omega
    simp [PosQueue.stride, hql]
  · intro h
    have hne : ps ≠ [] := by
      intro he; rw [he] at h; simp at h; omega
    have hql : (PosQueue.pushAll (PosQueue.mk' N) ps).queue.length = N := by
      rw [hq]; simp; omega
    have hnotlt : ¬ ((PosQueue.pushAll (PosQueue.mk' N) ps).queue.length <
        (PosQueue.pushAll (PosQueue.mk' N) ps).maxsz) := by
      rw [hql, hm]; omega
    have hrevne : ps.reverse ≠ [] := by
      simpa using hne
    have hhead : (PosQueue.pushAll (PosQueue.mk' N) ps).queue.head? =
        some (ps.getLast hne) := by
      rw [hq, head?_take _ _ hN, List.head?_reverse, List.getLast?_eq_getLast ps hne]
    have hlt2 : ps.length - N < ps.length :=
      Nat.sub_lt (Nat.lt_of_lt_of_le hN h) hN
    have hlast : (PosQueue.pushAll (PosQueue.mk' N) ps).queue.getLast? =
        some (ps.get ⟨ps.length - N, hlt2⟩) := by
      rw [hq]
      have hlen : (ps.reverse.take N).length = N := by simp; omega
      rw [List.getLast?_eq_getElem?, hlen]
      rw [List.getElem?_take_of_lt (by omega)]
      rw [List.getElem?_reverse (by omega)]
      rw [List.getElem?_eq_getElem (by omega)]
      simp only [List.get_eq_getElem]
      have hidx : ps.length - 1 - (N - 1) = ps.length - N := by omega
      simp only [hidx]
    simp only [PosQueue.stride, hnotlt, if_neg, hhead, hlast]
    simp

theorem posQueue_stride_spec_witness :
    (PosQueue.pushAll (PosQueue.mk' 2)
        [![0,0,0], ![3,0,0], ![0,4,0]]).stride =
      some ((dist2 ![0,4,0] ![3,0,0] : ℚ) : WithTop ℚ) := by
  have h := (posQueue_stride_spec 2 [![0,0,0], ![3,0,0], ![0,4,0]]
    (by norm_num)).2 (by norm_num)
  rw [h]
  rfl

/-!
## Single point measurement (`Measurements.py`, class `SinglePointMeasurement`)

Statistics records carry squared lengths (`avgErr2 = (avg err)²`, …), per the
embedding convention.  Python's `None` location is modelled as the empty
string (both are falsy for the `if self.curLoc:` test); statistics
dictionaries are total maps `String → Option _`, `none` meaning
"key absent".
-/

/-- The pair iteration of `itertools.combinations(l, 2)`, in source order. -/
def pairCombos {α : Type} : List α → List (α × α)
  | [] => []
  | x :: xs => xs.map (fun y => (x, y)) ++ pairCombos xs

/-- Result record of `__accuracyStats`. -/
structure AccStats where
  num : ℕ
  avgErr2 : ℚ
  maxErr2 : ℚ
deriving DecidableEq

/-- Result record of `__precisionStats`. -/
structure PrecStats where
  num : ℕ
  span2 : ℚ
  rms2 : ℚ
deriving DecidableEq

/-- `__accuracyStats(measurements)`: squared norm of (mean − ground truth),
and the running maximum of the squared per-sample errors (the source's
`maxerr = max(maxerr, ‖m − gt‖)` loop, squared). -/
def accuracyStatsFn (gt : Pos) (meas : List Pos) : AccStats :=
  if meas.length > 0 then
    { num := meas.length,
      avgErr2 := dist2 (centroid meas) gt,
      maxErr2 := meas.foldl (fun acc m => max acc (dist2 m gt)) 0 }
  else
    { num := 0, avgErr2 := 0, maxErr2 := 0 }

/-- `__precisionStats(measurements)`: largest squared pairwise distance
(`span`), and the mean of the squared distances to the sample mean
(`rms²`). -/
def precisionStatsFn (meas : List Pos) : PrecStats :=
  if meas.length > 0 then
    { num := meas.length,
      span2 := (pairCombos meas).foldl (fun acc p => max (dist2 p.1 p.2) acc) 0,
      rms2 := (meas.map (fun m => dist2 m (centroid meas))).sum / meas.length }
  else
    { num := 0, span2 := 0, rms2 := 0 }

/-- Mutable state of a `SinglePointMeasurement` object. -/
structure SPMState where
  acquiNumMax : ℕ
  acquiNum : ℕ
  gtPts : ℤ → Pos
  divot : ℤ
  curLoc : String
  measurements : String → List Pos
  allMeasurements : List Pos
  accuracyStats : String → Option AccStats
  precisionStats : String → Option PrecStats

namespace SPMState

/-- `updateAccuracyStats()`: recompute the current location's statistics and,
exactly when the sequence is over (`acquiNum == acquiNumMax`) and samples
exist, store them under the location key (if the location is truthy) and
recompute the aggregate `"ALL"` entry from `allMeasurements`. -/
def updateAccuracyStats (s : SPMState) : SPMState :=
  let st := accuracyStatsFn (s.gtPts s.divot) (s.measurements s.curLoc)
  if s.acquiNum = s.acquiNumMax ∧ (s.measurements s.curLoc).length > 0 then
    let acc1 := if s.curLoc ≠ "" then
        Function.update s.accuracyStats s.curLoc (some st)
      else s.accuracyStats
    let accAll := accuracyStatsFn (s.gtPts s.divot) s.allMeasurements
    { s with accuracyStats := Function.update acc1 "ALL" (some accAll) }
  else s

/-- `updatePrecisionStats()`, same store discipline as the accuracy case. -/
def updatePrecisionStats (s : SPMState) : SPMState :=
  let st := precisionStatsFn (s.measurements s.curLoc)
  if s.acquiNum = s.acquiNumMax ∧ (s.measurements s.curLoc).length > 0 then
    let prec1 := if s.curLoc ≠ "" then
        Function.update s.precisionStats s.curLoc (some st)
      else s.precisionStats
    let precAll := precisionStatsFn s.allMeasurements
    { s with precisionStats := Function.update prec1 "ALL" (some precAll) }
  else s

/-- `onDivDone(pos)`: count the acquisition, append the position to the
current location's record, fold the location's record into
`allMeasurements` once the acquisition count is no longer below the
maximum, then refresh both statistics stores. -/
def onDivDone (s : SPMState) (pos : Pos) : SPMState :=
  let s1 := { s with
    acquiNum := s.acquiNum + 1,
    measurements := Function.update s.measurements s.curLoc
      (s.measurements s.curLoc ++ [pos]) }
  let s2 := if s1.acquiNum < s1.acquiNumMax then s1
    else { s1 with
      allMeasurements := s1.allMeasurements ++ s1.measurements s1.curLoc }
  updateAccuracyStats (updatePrecisionStats s2)

end SPMState

/-!
### Accuracy statistics (claim about `__accuracyStats`)
-/

theorem le_foldl_max (l : List ℚ) (a : ℚ) : a ≤ l.foldl max a := by
  induction l generalizing a with
  | nil => simp
  | cons x xs ih => exact le_trans (le_max_left a x) (ih (max a x))

theorem foldl_max_le (l : List ℚ) (a : ℚ) : ∀ x ∈ l, x ≤ l.foldl max a := by
  induction l generalizing a with
  | nil => simp
  | cons y ys ih =>
    intro x hx
    rcases List.mem_cons.mp hx with rfl | hmem
    · exact le_trans (le_max_right a x) (le_foldl_max ys (max a x))
    · exact ih (max a y) x hmem

theorem foldl_max_eq_init_or_mem (l : List ℚ) (a : ℚ) :
    l.foldl max a = a ∨ l.foldl max a ∈ l := by
  induction l generalizing a with
  | nil => left; rfl
  | cons y ys ih =>
    rcases ih (max a y) with h | h
    · rcases max_cases a y with ⟨hm, _⟩ | ⟨hm, _⟩
      · left; rw [List.foldl_cons, h, hm]
      · right; rw [List.foldl_cons, h, hm]; exact List.mem_cons_self y ys
    · right; rw [List.foldl_cons]; exact List.mem_cons_of_mem y h

theorem sumPos_map_subt (l : List Pos) (g : Pos) :
    sumPos (l.map (fun m => m - g)) = sumPos l - (l.length : ℚ) • g := by
  induction l with
  | nil => simp [sumPos]
  | cons x xs ih =>
    simp only [List.map_cons, sumPos_cons, ih, List.length_cons]
    push_cast
    module

theorem centroid_map_subt (l : List Pos) (g : Pos) (h : l ≠ []) :
    centroid (l.map (fun m => m - g)) = centroid l - g := by
  have hlen : (l.length : ℚ) ≠ 0 := by
    simp [List.length_eq_zero]
    exact h
  simp only [centroid, List.length_map, sumPos_map_subt, smul_sub]
  rw [smul_smul, inv_mul_cancel₀ hlen, one_smul]

/-- **C3**: for a non-empty sample list, `avg err` is the magnitude of the
*mean of the per-sample error vectors* (not the mean of the per-sample error
magnitudes), and `max` is the largest per-sample error; the empty list gives
the all-zero record with count 0.  (All quantities squared, per the
embedding convention.) -/
theorem singlePoint_accuracy_stats (gt : Pos) (meas : List Pos) :
    (meas ≠ [] →
      (accuracyStatsFn gt meas).num = meas.length ∧
      (accuracyStatsFn gt meas).avgErr2 =
        dist2 (centroid (meas.map (fun m => m - gt))) 0 ∧
      (∀ m ∈ meas, dist2 m gt ≤ (accuracyStatsFn gt meas).maxErr2) ∧
      (accuracyStatsFn gt meas).maxErr2 ∈ meas.map (fun m => dist2 m gt)) ∧
    (meas = [] → accuracyStatsFn gt meas = { num := 0, avgErr2 := 0, maxErr2 := 0 }) := by
  constructor
  · intro hne
    have hlen : meas.length > 0 := List.length_pos.mpr hne
    have hif : accuracyStatsFn gt meas =
        { num := meas.length,
          avgErr2 := dist2 (centroid meas) gt,
          maxErr2 := meas.foldl (fun acc m => max acc (dist2 m gt)) 0 } := by
      simp [accuracyStatsFn, hlen]
    have hfold : meas.foldl (fun acc m => max acc (dist2 m gt)) 0 =
        (meas.map (fun m => dist2 m gt)).foldl max 0 := by
      rw [List.foldl_map]
    refine ⟨by rw [hif], ?_, ?_, ?_⟩
    · rw [hif]
      simp only [centroid_map_subt meas gt hne]
      simp [dist2]
    · intro m hm
      rw [hif]
      show dist2 m gt ≤ meas.foldl (fun acc m => max acc (dist2 m gt)) 0
      rw [hfold]
      exact foldl_max_le (meas.map (fun m => dist2 m gt)) 0
        (dist2 m gt) (List.mem_map_of_mem _ hm)
    · rw [hif]
      simp only [hfold]
      rcases foldl_max_eq_init_or_mem (meas.map (fun m => dist2 m gt)) 0 with h0 | hmem
      · -- the fold stayed at the initial 0: then the first error is 0 as well
        rcases meas with _ | ⟨m0, rest⟩
        · exact absurd rfl hne
        · have hle : dist2 m0 gt ≤ 0 := by
            have := foldl_max_le ((m0 :: rest).map (fun m => dist2 m gt)) 0
              (dist2 m0 gt) (by simp)
            rw [h0] at this
            exact this
          have h00 : dist2 m0 gt = 0 := le_antisymm hle (dist2_nonneg m0 gt)
          rw [h0, ← h00]
          simp
      · exact hmem
  · intro he
    subst he
    simp [accuracyStatsFn]

theorem singlePoint_accuracy_stats_witness :
    (([![1,0,0], ![3,0,0]] : List Pos) ≠ [] ∧
      ((accuracyStatsFn ![0,0,0] [![1,0,0], ![3,0,0]]).num = 2 ∧
        (accuracyStatsFn ![0,0,0] [![1,0,0], ![3,0,0]]).avgErr2 =
          dist2 (centroid (([![1,0,0], ![3,0,0]] : List Pos).map
            (fun m => m - ![0,0,0]))) 0 ∧
        (∀ m ∈ ([![1,0,0], ![3,0,0]] : List Pos),
          dist2 m ![0,0,0] ≤ (accuracyStatsFn ![0,0,0] [![1,0,0], ![3,0,0]]).maxErr2) ∧
        (accuracyStatsFn ![0,0,0] [![1,0,0], ![3,0,0]]).maxErr2 ∈
          ([![1,0,0], ![3,0,0]] : List Pos).map (fun m => dist2 m ![0,0,0]))) :=
  ⟨by simp,
    (singlePoint_accuracy_stats ![0,0,0] [![1,0,0], ![3,0,0]]).1 (by simp)⟩

/-!
### Finalization discipline of `onDivDone` (frame effect)
-/

theorem updateAccuracyStats_of_ne (s : SPMState) (h : s.acquiNum ≠ s.acquiNumMax) :
    s.updateAccuracyStats = s := by
  simp [SPMState.updateAccuracyStats, h]

theorem updatePrecisionStats_of_ne (s : SPMState) (h : s.acquiNum ≠ s.acquiNumMax) :
    s.updatePrecisionStats = s := by
  simp [SPMState.updatePrecisionStats, h]

/-- **C4**: `onDivDone` leaves both statistics stores untouched whenever the
new acquisition count differs from `acquiNumMax`; exactly when it reaches
`acquiNumMax`, the statistics of the current location's samples are stored
under the location key, the aggregate `"ALL"` entry is recomputed from the
accumulated `allMeasurements`, and every other key is untouched. -/
theorem singlePoint_finalize_frame (s : SPMState) (pos : Pos)
    (hloc : s.curLoc ≠ "") (hlocAll : s.curLoc ≠ "ALL") :
    (s.acquiNum + 1 ≠ s.acquiNumMax →
      (s.onDivDone pos).accuracyStats = s.accuracyStats ∧
      (s.onDivDone pos).precisionStats = s.precisionStats) ∧
    (s.acquiNum + 1 = s.acquiNumMax →
      (s.onDivDone pos).accuracyStats s.curLoc =
        some (accuracyStatsFn (s.gtPts s.divot) (s.measurements s.curLoc ++ [pos])) ∧
      (s.onDivDone pos).precisionStats s.curLoc =
        some (precisionStatsFn (s.measurements s.curLoc ++ [pos])) ∧
      (s.onDivDone pos).accuracyStats "ALL" =
        some (accuracyStatsFn (s.gtPts s.divot)
          (s.allMeasurements ++ (s.measurements s.curLoc ++ [pos]))) ∧
      (s.onDivDone pos).precisionStats "ALL" =
        some (precisionStatsFn
          (s.allMeasurements ++ (s.measurements s.curLoc ++ [pos]))) ∧
      (∀ loc, loc ≠ s.curLoc → loc ≠ "ALL" →
        (s.onDivDone pos).accuracyStats loc = s.accuracyStats loc ∧
        (s.onDivDone pos).precisionStats loc = s.precisionStats loc)) := by
  constructor
  · intro hne
    simp only [SPMState.onDivDone]
    by_cases hlt : s.acquiNum + 1 < s.acquiNumMax
    · rw [if_pos hlt, updatePrecisionStats_of_ne _ hne, updateAccuracyStats_of_ne _ hne]
      exact ⟨rfl, rfl⟩
    · rw [if_neg hlt, updatePrecisionStats_of_ne _ hne, updateAccuracyStats_of_ne _ hne]
      exact ⟨rfl, rfl⟩
  · intro heq
    have hnlt : ¬ (s.acquiNum + 1 < s.acquiNumMax) := by omega
    have hmeas : Function.update s.measurements s.curLoc
        (s.measurements s.curLoc ++ [pos]) s.curLoc =
        s.measurements s.curLoc ++ [pos] := Function.update_same _ _ _
    simp only [SPMState.onDivDone, if_neg hnlt]
    simp only [SPMState.updatePrecisionStats, SPMState.updateAccuracyStats,
      hmeas, heq, if_pos, List.length_append, List.length_cons,
      List.length_nil, Nat.add_zero]
    refine ⟨?_, ?_, ?_, ?_, ?_⟩ <;>
      simp [hloc, hlocAll, Function.update_same, Function.update_noteq,
        hmeas, heq, Ne.symm hlocAll]
    intro loc hne1 hne2
    constructor <;>
      rw [Function.update_noteq hne2, Function.update_noteq hne1]

/-- A concrete single-point state one acquisition away from finalization. -/
def spmWitnessState : SPMState :=
  { acquiNumMax := 1, acquiNum := 0, gtPts := fun _ => ![0,0,0], divot := 1,
    curLoc := "CL", measurements := fun _ => [], allMeasurements := [],
    accuracyStats := fun _ => none, precisionStats := fun _ => none }

theorem singlePoint_finalize_frame_witness :
    spmWitnessState.curLoc ≠ "" ∧
    spmWitnessState.curLoc ≠ "ALL" ∧
    spmWitnessState.acquiNum + 1 = spmWitnessState.acquiNumMax ∧
    (spmWitnessState.onDivDone ![1,1,1]).accuracyStats spmWitnessState.curLoc =
      some (accuracyStatsFn (spmWitnessState.gtPts spmWitnessState.divot)
        (spmWitnessState.measurements spmWitnessState.curLoc ++ [![1,1,1]])) := by
  refine ⟨by decide, by decide, by decide, ?_⟩
  exact ((singlePoint_finalize_frame spmWitnessState ![1,1,1]
    (by decide) (by decide)).2 (by decide)).1

/-!
## Rotation measurement (`Measurements.py`, class `RotationMeasurement`)

A measurement row is an (angle, position) pair (`np.append(self.rotAng,
self.rotPos)` — row layout `[angle, x, y, z]`).
-/

/-- Result record of `RotationMeasurement.__stats` (squared distances). -/
structure RotStats where
  num : ℕ
  rangeMin : ℚ
  rangeMax : ℚ
  span2 : ℚ
  rms2 : ℚ
deriving DecidableEq

/-- `__stats(meas)`: angle range, largest squared pairwise position distance
(`span`), and the mean squared distance of each position to the *mean of the
recorded positions* (`rms²` — the source's `avg = np.mean(meas[:,1:],
axis=0)`). -/
def rotStatsFn (meas : List (ℚ × Pos)) : RotStats :=
  match meas with
  | [] => { num := 0, rangeMin := 0, rangeMax := 0, span2 := 0, rms2 := 0 }
  | m0 :: rest =>
    let all := m0 :: rest
    let angs := all.map Prod.fst
    let ps := all.map Prod.snd
    { num := all.length,
      rangeMin := angs.foldl min m0.1,
      rangeMax := angs.foldl max m0.1,
      span2 := (pairCombos ps).foldl (fun acc p => max (dist2 p.1 p.2) acc) 0,
      rms2 := (ps.map (fun q => dist2 q (centroid ps))).sum / ps.length }

/-- The *claim's* definition of the rotation `rms` (squared): root-mean-square
of the distances from each recorded position to the reference base position.
Stated from the spec's words, for comparison with `rotStatsFn`. -/
def rotRmsSpec2 (basePos : Pos) (meas : List (ℚ × Pos)) : ℚ :=
  (meas.map (fun m => dist2 m.2 basePos)).sum / meas.length

/-- **C6 counterexample**: a single sample recorded at distance 1 from the
base position.  The source's `rms` is 0 (deviation from the sample mean),
while the claim's value (RMS distance to the base position) is 1. -/
theorem rotation_rms_counterexample :
    (rotStatsFn [((0 : ℚ), ![1,0,0])]).rms2 = 0 ∧
    rotRmsSpec2 ![0,0,0] [((0 : ℚ), ![1,0,0])] = 1 ∧
    (0 : ℚ) ≠ 1 := by
  refine ⟨?_, ?_, by norm_num⟩
  · simp [rotStatsFn, centroid, sumPos, dist2, dotProduct]
  · simp [rotRmsSpec2, dist2, dotProduct, Fin.sum_univ_three]

/-- **C6 amended**: for every non-empty list of recorded samples, the rotation
statistic `rms` is the RMS of the distances from each recorded position to
the *mean of the recorded positions*; the base position does not enter the
computation (it is not even an argument of the statistics routine). -/
theorem rotation_rms_amended (meas : List (ℚ × Pos)) (h : meas ≠ []) :
    (rotStatsFn meas).rms2 =
      ((meas.map Prod.snd).map
        (fun q => dist2 q (centroid (meas.map Prod.snd)))).sum /
        (meas.map Prod.snd).length := by
  cases meas with
  | nil => exact absurd rfl h
  | cons m0 rest => rfl

theorem rotation_rms_amended_witness :
    ([((0 : ℚ), (![1,0,0] : Pos))] ≠ []) ∧
    (rotStatsFn [((0 : ℚ), ![1,0,0])]).rms2 =
      (([((0 : ℚ), (![1,0,0] : Pos))].map Prod.snd).map
        (fun q => dist2 q (centroid ([((0 : ℚ), (![1,0,0] : Pos))].map Prod.snd)))).sum /
        ([((0 : ℚ), (![1,0,0] : Pos))].map Prod.snd).length :=
  ⟨by simp, rotation_rms_amended [((0 : ℚ), ![1,0,0])] (by simp)⟩

/-!
## Rotation sampling filter (`AstmPhantomTest.py`,
`onRotPointerAnglesChanged` / `onPointerTrackingStarted`)

The modelled trace is a single rotation acquisition: the two pointer events
that mutate the current location's measurement rows.  `rotAng`/`rotPos` are
the fields the angle handler stores before the filter runs; the tracking
handler records the first sample from them and raises `rotTestAcquiring`.
-/

inductive RotEvent where
  | angles (a : ℚ) (p : Pos)
  | trackStart
deriving DecidableEq

structure RotAcqState where
  angStep : ℚ
  rotAng : ℚ
  rotPos : Pos
  rotTestAcquiring : Bool
  meas : List (ℚ × Pos)

/-- One event step.  For `angles`: store the current angle/position, then, if
acquiring, append a sample exactly when the angle moved past the last
recorded sample by more than `angStep` in the direction fixed by the sign of
the first recorded angle.  For `trackStart`: if not yet acquiring, record the
first sample and raise the flag.  (The empty-measurement branch under
`acquiring` is unreachable — Python would raise `IndexError` there — and is
modelled as a no-op; the invariant below proves it never fires.) -/
def rotStep (s : RotAcqState) (e : RotEvent) : RotAcqState :=
  match e with
  | .angles a p =>
    let s1 := { s with rotAng := a, rotPos := p }
    if s1.rotTestAcquiring then
      match s1.meas with
      | [] => s1
      | m0 :: rest =>
        let firstA := m0.1
        let lastA := ((m0 :: rest).getLast (List.cons_ne_nil m0 rest)).1
        if (firstA < 0 ∧ s1.rotAng - lastA > s1.angStep) ∨
            (0 < firstA ∧ lastA - s1.rotAng > s1.angStep) then
          { s1 with meas := s1.meas ++ [(s1.rotAng, s1.rotPos)] }
        else s1
    else s1
  | .trackStart =>
    if s.rotTestAcquiring then s
    else { s with meas := s.meas ++ [(s.rotAng, s.rotPos)],
                  rotTestAcquiring := true }

def runRot (s : RotAcqState) (es : List RotEvent) : RotAcqState :=
  es.foldl rotStep s

def initRot (step a0 : ℚ) (p0 : Pos) : RotAcqState :=
  { angStep := step, rotAng := a0, rotPos := p0,
    rotTestAcquiring := false, meas := [] }

/-- Directional gap between two consecutive recorded samples, relative to the
sign of the first recorded angle. -/
def gapRel (step first : ℚ) (x y : ℚ × Pos) : Prop :=
  (first < 0 → y.1 - x.1 > step) ∧ (0 < first → x.1 - y.1 > step)

/-- All consecutive recorded samples are separated by more than `angStep` in
the direction fixed by the first recorded angle. -/
def gapsOK (step : ℚ) : List (ℚ × Pos) → Prop
  | [] => True
  | m0 :: rest => List.Chain' (gapRel step m0.1) (m0 :: rest)

/-- When the first recorded angle is exactly 0, neither direction branch of
the filter can fire, so the record stays a singleton. -/
def headZeroSingleton : List (ℚ × Pos) → Prop
  | [] => True
  | m0 :: rest => m0.1 = 0 → rest = []

/-- Machine invariant of the acquisition trace. -/
def rotInv (step : ℚ) (s : RotAcqState) : Prop :=
  s.angStep = step ∧
  (s.meas = [] ↔ s.rotTestAcquiring = false) ∧
  gapsOK step s.meas ∧
  headZeroSingleton s.meas

theorem rotStep_inv (step : ℚ) (s : RotAcqState) (e : RotEvent)
    (h : rotInv step s) : rotInv step (rotStep s e) := by
  obtain ⟨hstep, hacq, hgaps, hzero⟩ := h
  cases e with
  | trackStart =>
    by_cases hb : s.rotTestAcquiring
    · simpa [rotStep, hb] using ⟨hstep, hacq, hgaps, hzero⟩
    · have hnil : s.meas = [] := hacq.mpr (by simpa using hb)
      simp only [rotStep, hb, if_neg, Bool.false_eq_true, not_false_eq_true]
      refine ⟨hstep, by simp [hnil], ?_, ?_⟩
      · simp [hnil, gapsOK]
      · simp [hnil, headZeroSingleton]
  | angles a p =>
    by_cases hb : s.rotTestAcquiring
    · cases hm : s.meas with
      | nil => exact absurd (hacq.mp hm) (by simp [hb])
      | cons m0 rest =>
        by_cases hcond : (m0.1 < 0 ∧
              a - ((m0 :: rest).getLast (List.cons_ne_nil m0 rest)).1 > s.angStep) ∨
            (0 < m0.1 ∧
              ((m0 :: rest).getLast (List.cons_ne_nil m0 rest)).1 - a > s.angStep)
        · have hres : rotStep s (RotEvent.angles a p) =
              { s with rotAng := a, rotPos := p,
                       meas := (m0 :: rest) ++ [(a, p)] } := by
            simp only [rotStep, hb, if_pos, hm]
            rw [if_pos hcond]
          rw [hres]
          refine ⟨hstep, by simp [hb], ?_, ?_⟩
          · rw [hm] at hgaps
            show List.Chain' (gapRel step m0.1) ((m0 :: rest) ++ [(a, p)])
            rw [List.chain'_append]
            refine ⟨hgaps, by simp [gapsOK], ?_⟩
            intro x hx y hy
            have hxl : x = (m0 :: rest).getLast (List.cons_ne_nil m0 rest) := by
              rw [List.getLast?_eq_getLast _ (List.cons_ne_nil m0 rest)] at hx
              simpa [eq_comm] using hx
            have hyv : y = (a, p) := by simpa [eq_comm] using hy
            subst hxl hyv
            rcases hcond with ⟨hneg, hgap⟩ | ⟨hpos, hgap⟩
            · exact ⟨fun _ => by simpa [hstep] using hgap,
                fun hp => absurd hp (by linarith)⟩
            · exact ⟨fun hn => absurd hn (by linarith),
                fun _ => by simpa [hstep] using hgap⟩
          · show headZeroSingleton ((m0 :: rest) ++ [(a, p)])
            intro h0
            exfalso
            rcases hcond with ⟨hneg, _⟩ | ⟨hpos, _⟩
            · rw [h0] at hneg; linarith
            · rw [h0] at hpos; linarith
        · have hres : rotStep s (RotEvent.angles a p) =
              { s with rotAng := a, rotPos := p } := by
            simp only [rotStep, hb, if_pos, hm]
            rw [if_neg hcond]
          rw [hres]
          exact ⟨hstep, by simpa using hacq, by simpa [hm] using hgaps,
            by simpa [hm] using hzero⟩
    · have hres : rotStep s (RotEvent.angles a p) =
          { s with rotAng := a, rotPos := p } := by
        simp only [rotStep]
        rw [if_neg (by simpa using hb)]
      rw [hres]
      exact ⟨hstep, by simpa using hacq, hgaps, hzero⟩

theorem runRot_inv (step : ℚ) (es : List RotEvent) (s : RotAcqState)
    (h : rotInv step s) : rotInv step (runRot s es) := by
  induction es generalizing s with
  | nil => exact h
  | cons e es ih => exact ih (rotStep s e) (rotStep_inv step s e h)

/-- Angle payload bounds of an event. -/
def evAngOK (lo hi : ℚ) : RotEvent → Prop
  | .angles a _ => lo ≤ a ∧ a ≤ hi
  | .trackStart => True

/-- Range invariant: the stored angle and every recorded angle lie in
`[lo, hi]`. -/
def rotInvRange (lo hi : ℚ) (s : RotAcqState) : Prop :=
  (lo ≤ s.rotAng ∧ s.rotAng ≤ hi) ∧ (∀ m ∈ s.meas, lo ≤ m.1 ∧ m.1 ≤ hi)

theorem rotStep_range (lo hi : ℚ) (s : RotAcqState) (e : RotEvent)
    (he : evAngOK lo hi e) (h : rotInvRange lo hi s) :
    rotInvRange lo hi (rotStep s e) := by
  obtain ⟨hang, hmeas⟩ := h
  cases e with
  | trackStart =>
    by_cases hb : s.rotTestAcquiring
    · simpa [rotStep, hb] using ⟨hang, hmeas⟩
    · simp only [rotStep, hb, if_neg, Bool.false_eq_true, not_false_eq_true]
      refine ⟨hang, ?_⟩
      intro m hm
      rcases List.mem_append.mp hm with h1 | h2
      · exact hmeas m h1
      · have : m = (s.rotAng, s.rotPos) := by simpa using h2
        rw [this]
        exact hang
  | angles a p =>
    obtain ⟨hlo, hhi⟩ := he
    by_cases hb : s.rotTestAcquiring
    · cases hm : s.meas with
      | nil =>
        simp only [rotStep, hb, if_pos, hm]
        exact ⟨⟨hlo, hhi⟩, by simp⟩
      | cons m0 rest =>
        simp only [rotStep, hb, if_pos, hm]
        by_cases hcond : (m0.1 < 0 ∧
              a - ((m0 :: rest).getLast (List.cons_ne_nil m0 rest)).1 > s.angStep) ∨
            (0 < m0.1 ∧
              ((m0 :: rest).getLast (List.cons_ne_nil m0 rest)).1 - a > s.angStep)
        · rw [if_pos hcond]
          refine ⟨⟨hlo, hhi⟩, ?_⟩
          intro m hmm
          rcases List.mem_append.mp hmm with h1 | h2
          · exact hmeas m (by rw [hm]; exact h1)
          · have : m = (a, p) := by simpa using h2
            rw [this]
            exact ⟨hlo, hhi⟩
        · rw [if_neg hcond]
          exact ⟨⟨hlo, hhi⟩, fun m h1 => hmeas m (by rw [hm]; exact h1)⟩
    · simp only [rotStep]
      rw [if_neg (by simpa using hb)]
      exact ⟨⟨hlo, hhi⟩, hmeas⟩

theorem runRot_range (lo hi : ℚ) (es : List RotEvent) (s : RotAcqState)
    (hes : ∀ e ∈ es, evAngOK lo hi e) (h : rotInvRange lo hi s) :
    rotInvRange lo hi (runRot s es) := by
  induction es generalizing s with
  | nil => exact h
  | cons e es ih =>
    exact ih (rotStep s e) (fun x hx => hes x (List.mem_cons_of_mem e hx))
      (rotStep_range lo hi s e (hes e (List.mem_cons_self e es)) h)

theorem chain_desc_le_head (l : List ℚ) (b : ℚ)
    (h : (b :: l).Chain' (fun x y => x - y > 2)) : ∀ x ∈ b :: l, x ≤ b := by
  induction l generalizing b with
  | nil =>
    intro x hx
    have : x = b := by simpa using hx
    rw [this]
  | cons c tl ih =>
    intro x hx
    have hbc : b - c > 2 := (List.chain'_cons.mp h).1
    have hch' := (List.chain'_cons.mp h).2
    rcases List.mem_cons.mp hx with rfl | hx'
    · exact le_refl x
    · have := ih c hch' x hx'
      linarith

theorem desc_chain_length_bound : ∀ (n : ℕ) (l : List ℚ),
    l.Chain' (fun x y => x - y > 2) → (∀ x ∈ l, 0 ≤ x) →
    (∀ x ∈ l, x ≤ 2 * n) → l.length ≤ n + 1 := by
  intro n
  induction n with
  | zero =>
    intro l hch h0 hle
    match l with
    | [] => simp
    | [a] => simp
    | a :: b :: tl =>
      exfalso
      have hab : a - b > 2 := (List.chain'_cons.mp hch).1
      have hb := h0 b (by simp)
      have ha := hle a (by simp)
      norm_num at ha
      linarith
  | succ n ih =>
    intro l hch h0 hle
    match l with
    | [] => simp
    | a :: tl =>
      have hch' : tl.Chain' (fun x y => x - y > 2) := hch.tail
      have htl : ∀ x ∈ tl, x ≤ 2 * n := by
        intro x hx
        cases tl with
        | nil => simp at hx
        | cons b tl2 =>
          have hab : a - b > 2 := (List.chain'_cons.mp hch).1
          have hxb : x ≤ b := chain_desc_le_head tl2 b hch' x hx
          have ha := hle a (by simp)
          push_cast at ha ⊢
          linarith
      have := ih tl hch' (fun x hx => h0 x (List.mem_cons_of_mem a hx)) htl
      simpa using Nat.succ_le_succ this

/-- **C5**: over any single rotation acquisition trace, consecutive recorded
samples are separated by more than `angStep` in the single direction fixed by
the sign of the first recorded angle (hence by more than `angStep` in
absolute value), and an acquisition whose angles all stay within `[0°, 30°]`
with `angStep = 2°` records at most 16 samples. -/
theorem rotation_sampling_filter (step a0 : ℚ) (p0 : Pos)
    (events : List RotEvent) :
    gapsOK step (runRot (initRot step a0 p0) events).meas ∧
    List.Chain' (fun x y => |y.1 - x.1| > step)
      (runRot (initRot step a0 p0) events).meas ∧
    (step = 2 → 0 ≤ a0 → a0 ≤ 30 →
      (∀ e ∈ events, evAngOK 0 30 e) →
      (runRot (initRot step a0 p0) events).meas.length ≤ 16) := by
  have hinv : rotInv step (runRot (initRot step a0 p0) events) := by
    apply runRot_inv
    exact ⟨rfl, by simp [initRot], by simp [initRot, gapsOK],
      by simp [initRot, headZeroSingleton]⟩
  obtain ⟨hstep, hacq, hgaps, hzero⟩ := hinv
  refine ⟨hgaps, ?_, ?_⟩
  · -- absolute angular gaps
    cases hm : (runRot (initRot step a0 p0) events).meas with
    | nil => exact List.chain'_nil
    | cons m0 rest =>
      rw [hm] at hgaps hzero
      rcases lt_trichotomy m0.1 0 with hneg | hzero0 | hpos
      · refine List.Chain'.imp ?_ hgaps
        intro x y hxy
        have := hxy.1 hneg
        have habs : y.1 - x.1 ≤ |y.1 - x.1| := le_abs_self _
        linarith
      · have : rest = [] := hzero hzero0
        rw [this]
        simp
      · refine List.Chain'.imp ?_ hgaps
        intro x y hxy
        have := hxy.2 hpos
        have habs : x.1 - y.1 ≤ |y.1 - x.1| := by
          rw [abs_sub_comm]
          exact le_abs_self _
        linarith
  · -- the 0°–30° sweep bound
    intro h2 h0 h30 hev
    have hrange : rotInvRange 0 30 (runRot (initRot step a0 p0) events) := by
      apply runRot_range 0 30 events _ hev
      exact ⟨⟨h0, h30⟩, by simp [initRot]⟩
    obtain ⟨-, hmr⟩ := hrange
    cases hm : (runRot (initRot step a0 p0) events).meas with
    | nil => simp
    | cons m0 rest =>
      rw [hm] at hgaps hzero hmr
      rcases lt_trichotomy m0.1 0 with hneg | hzero0 | hpos
      · exact absurd (hmr m0 (by simp)).1 (by linarith)
      · rw [hzero hzero0]
        simp
      · -- strictly descending chain of angles within [0, 30]
        have hchain : (m0 :: rest).Chain' (fun x y => x.1 - y.1 > 2) := by
          refine List.Chain'.imp ?_ hgaps
          intro x y hxy
          have := hxy.2 hpos
          rw [h2] at this
          exact this
        have hmapchain : ((m0 :: rest).map Prod.fst).Chain'
            (fun x y => x - y > 2) := (List.chain'_map Prod.fst).mpr hchain
        have hbound := desc_chain_length_bound 15 ((m0 :: rest).map Prod.fst)
          hmapchain
          (by
            intro x hx
            obtain ⟨m, hm1, rfl⟩ := List.mem_map.mp hx
            exact (hmr m hm1).1)
          (by
            intro x hx
            obtain ⟨m, hm1, rfl⟩ := List.mem_map.mp hx
            have := (hmr m hm1).2
            norm_num
            exact this)
        simpa using hbound

theorem rotation_sampling_filter_witness :
    ((2 : ℚ) = 2 ∧ (0 : ℚ) ≤ 5 ∧ (5 : ℚ) ≤ 30 ∧
      (∀ e ∈ ([RotEvent.trackStart, RotEvent.angles 1 ![0,0,0]] : List RotEvent),
        evAngOK 0 30 e)) ∧
    (runRot (initRot 2 5 ![0,0,0])
      [RotEvent.trackStart, RotEvent.angles 1 ![0,0,0]]).meas.length ≤ 16 := by
  have hev : ∀ e ∈ ([RotEvent.trackStart,
      RotEvent.angles 1 ![0,0,0]] : List RotEvent), evAngOK 0 30 e := by
    intro e he
    rcases List.mem_cons.mp he with rfl | he2
    · exact trivial
    · have : e = RotEvent.angles 1 ![0,0,0] := by simpa using he2
      rw [this]
      exact ⟨by norm_num, by norm_num⟩
  refine ⟨⟨rfl, by norm_num, by norm_num, hev⟩, ?_⟩
  exact (rotation_sampling_filter 2 5 ![0,0,0]
    [RotEvent.trackStart, RotEvent.angles 1 ![0,0,0]]).2.2
    rfl (by norm_num) (by norm_num) hev

/-!
## Target proximity detection (`Targets.py`, class `Targets`)

The `targets` dict is insertion-ordered, like a Python dict; each `Target`
is reduced to its `pos` (all other fields drive rendering only).  The
source's `dist < self.proxiThresh` (Euclidean) is embedded as
`dist2 < proxiThresh²`, equivalent for the positive thresholds the class
uses (`proxiThresh = 2` mm). -/

structure TargetsState where
  targets : List (ℤ × Pos)
  firstLbl : Option ℤ
  proxiDetect : Bool
  proxiThresh : ℚ
  lblHit : Option ℤ

/-- The `for k in self.targets: if dist < thresh: … break` scan — the first
target within the threshold, in declaration order. -/
def findHit (thresh2 : ℚ) (p : Pos) : List (ℤ × Pos) → Option ℤ
  | [] => none
  | t :: rest => if dist2 p t.2 < thresh2 then some t.1 else findHit thresh2 p rest

/-- `onTargetFocus(pos)`: in proximity mode, hit the first target within
`proxiThresh` of the position (if any), record it as `lblHit`, and emit
`TargetHit(label, pos)` (the source's `p.insert(0, lblHit)` payload);
otherwise (sequential mode) hit the first remaining target if one exists. -/
def onTargetFocus (st : TargetsState) (p : Pos) :
    TargetsState × Option (ℤ × Pos) :=
  if st.proxiDetect then
    match findHit (st.proxiThresh ^ 2) p st.targets with
    | some k => ({ st with lblHit := some k }, some (k, p))
    | none => (st, none)
  else
    match st.firstLbl with
    | some k => ({ st with lblHit := some k }, some (k, p))
    | none => (st, none)

/-- Two targets 1 mm apart, threshold 2 mm, pointer exactly on the *second*
target: the scan hits the first target instead. -/
def targetsCexState : TargetsState :=
  { targets := [(1, ![0,0,0]), (2, ![1,0,0])], firstLbl := some 1,
    proxiDetect := true, proxiThresh := 2, lblHit := none }

/-- **C9 counterexample**: the pointer coincides with target 2 and
`proxiThresh > 0`, yet the emitted `TargetHit` carries label 1 (the first
declared target within the threshold), not label 2. -/
theorem target_hit_counterexample :
    (0 : ℚ) < targetsCexState.proxiThresh ∧
    targetsCexState.proxiDetect = true ∧
    ((2 : ℤ), (![1,0,0] : Pos)) ∈ targetsCexState.targets ∧
    (onTargetFocus targetsCexState ![1,0,0]).2 = some (1, ![1,0,0]) ∧
    (1 : ℤ) ≠ 2 := by
  refine ⟨by norm_num [targetsCexState], rfl, by simp [targetsCexState], ?_, by norm_num⟩
  have h1 : dist2 (![1,0,0] : Pos) (![0,0,0] : Pos) < (2 : ℚ) ^ 2 := by
    rw [dist2_eq_sum, Fin.sum_univ_three]
    norm_num
  simp only [onTargetFocus, targetsCexState, findHit, if_pos h1]
  simp

theorem findHit_isSome (thresh2 : ℚ) (p : Pos) (l : List (ℤ × Pos))
    (h : ∃ t ∈ l, dist2 p t.2 < thresh2) : (findHit thresh2 p l).isSome := by
  induction l with
  | nil => simp at h
  | cons t rest ih =>
    by_cases ht : dist2 p t.2 < thresh2
    · simp [findHit, ht]
    · obtain ⟨u, hu, hud⟩ := h
      rcases List.mem_cons.mp hu with rfl | hu'
      · exact absurd hud ht
      · simpa [findHit, ht] using ih ⟨u, hu', hud⟩

theorem findHit_first (thresh2 : ℚ) (p : Pos) :
    ∀ (l : List (ℤ × Pos)) (k : ℤ), findHit thresh2 p l = some k →
      ∃ i, ∃ hi : i < l.length,
        (l.get ⟨i, hi⟩).1 = k ∧ dist2 p (l.get ⟨i, hi⟩).2 < thresh2 ∧
        ∀ j, ∀ hj : j < l.length, j < i →
          ¬ dist2 p (l.get ⟨j, hj⟩).2 < thresh2 := by
  intro l
  induction l with
  | nil => intro k h; simp [findHit] at h
  | cons t rest ih =>
    intro k h
    by_cases ht : dist2 p t.2 < thresh2
    · have hk : t.1 = k := by simpa [findHit, ht] using h
      exact ⟨0, by simp, by simpa using hk, by simpa using ht, by omega⟩
    · have h' : findHit thresh2 p rest = some k := by simpa [findHit, ht] using h
      obtain ⟨i, hi, hk, hd, hfirst⟩ := ih k h'
      refine ⟨i + 1, by simpa using Nat.succ_lt_succ hi, by simpa using hk,
        by simpa using hd, ?_⟩
      intro j hj hlt
      cases j with
      | zero => simpa using ht
      | succ j' =>
        have hj' : j' < rest.length := by simpa using Nat.lt_of_succ_lt_succ hj
        have := hfirst j' hj' (by omega)
        simpa using this

/-- **C9 amended**: in proximity mode with a positive threshold, a stopped
position coinciding with some target's coordinates always produces a
`TargetHit`, but the hit carries the label of the *first declared* target
within `proxiThresh` of the position (first match wins), which need not be
the coincident one. -/
theorem target_hit_amended (st : TargetsState) (p : Pos)
    (hpd : st.proxiDetect = true) (hth : 0 < st.proxiThresh)
    (hcoin : ∃ t ∈ st.targets, t.2 = p) :
    ∃ k, (onTargetFocus st p).2 = some (k, p) ∧
      (onTargetFocus st p).1.lblHit = some k ∧
      ∃ i, ∃ hi : i < st.targets.length,
        (st.targets.get ⟨i, hi⟩).1 = k ∧
        dist2 p (st.targets.get ⟨i, hi⟩).2 < st.proxiThresh ^ 2 ∧
        ∀ j, ∀ hj : j < st.targets.length, j < i →
          ¬ dist2 p (st.targets.get ⟨j, hj⟩).2 < st.proxiThresh ^ 2 := by
  have hsome : (findHit (st.proxiThresh ^ 2) p st.targets).isSome := by
    apply findHit_isSome
    obtain ⟨t, htm, htp⟩ := hcoin
    have h0 : dist2 p p = 0 := dist2_eq_zero_iff.mpr rfl
    exact ⟨t, htm, by rw [htp, h0]; exact pow_pos hth 2⟩
  obtain ⟨k, hk⟩ := Option.isSome_iff_exists.mp hsome
  refine ⟨k, ?_, ?_, findHit_first _ _ _ k hk⟩
  · simp only [onTargetFocus, hpd, if_pos, hk]
  · simp only [onTargetFocus, hpd, if_pos, hk]

theorem target_hit_amended_witness :
    targetsCexState.proxiDetect = true ∧
    (0 : ℚ) < targetsCexState.proxiThresh ∧
    (∃ t ∈ targetsCexState.targets, t.2 = (![1,0,0] : Pos)) ∧
    (∃ k, (onTargetFocus targetsCexState ![1,0,0]).2 = some (k, ![1,0,0]) ∧
      (onTargetFocus targetsCexState ![1,0,0]).1.lblHit = some k ∧
      ∃ i, ∃ hi : i < targetsCexState.targets.length,
        (targetsCexState.targets.get ⟨i, hi⟩).1 = k ∧
        dist2 ![1,0,0] (targetsCexState.targets.get ⟨i, hi⟩).2 <
          targetsCexState.proxiThresh ^ 2 ∧
        ∀ j, ∀ hj : j < targetsCexState.targets.length, j < i →
          ¬ dist2 ![1,0,0] (targetsCexState.targets.get ⟨j, hj⟩).2 <
            targetsCexState.proxiThresh ^ 2) := by
  refine ⟨rfl, by norm_num [targetsCexState], ⟨(2, ![1,0,0]), by simp [targetsCexState], rfl⟩, ?_⟩
  exact target_hit_amended targetsCexState ![1,0,0] rfl
    (by norm_num [targetsCexState])
    ⟨(2, ![1,0,0]), by simp [targetsCexState], rfl⟩

/-!
## Distance measurement (`Measurements.py`, class `DistMeasurement`)

`measurements[loc]` is an insertion-ordered label → position dict (an
association list here).  `__stats` runs on a list of scalar errors; its
`std`/`rms` fields are square roots in the source and are carried squared
(`std2`/`rms2`).  The per-point registration residual involves the external
rigid `vtkLandmarkTransform` solve and a Euclidean norm, so `updateRegStats`
is parametrised by the solved transform (`solver`) and by the norm
(`errNorm`, standing for `np.linalg.norm`). -/

structure DStats where
  num : ℕ
  mean : ℚ
  dmin : ℚ
  dmax : ℚ
  std2 : ℚ
  rms2 : ℚ
deriving DecidableEq

/-- `__stats(errors)`: count, mean, min, max, population variance (`std²`)
and mean square (`rms²`) of a scalar error list; the all-zero record when
empty. -/
def distStatsFn (errors : List ℚ) : DStats :=
  match errors with
  | [] => { num := 0, mean := 0, dmin := 0, dmax := 0, std2 := 0, rms2 := 0 }
  | e :: rest =>
    let l := e :: rest
    let m := l.sum / l.length
    { num := l.length,
      mean := m,
      dmin := rest.foldl min e,
      dmax := rest.foldl max e,
      std2 := (l.map (fun x => (x - m) ^ 2)).sum / l.length,
      rms2 := (l.map (fun x => x ^ 2)).sum / l.length }

structure DistState where
  gtPts : ℤ → Pos
  curLoc : String
  measurements : String → List (ℤ × Pos)
  divotsToDo : List ℤ
  currLbl : ℤ
  distStats : String → Option DStats
  regStats : String → Option DStats
  allDistErrors : List ℚ
  allRegErrors : List ℚ

/-- `updateRegStats()`: when at least two divots have been measured at the
current location, solve a rigid landmark registration of the measured points
onto the ground truth and collect the per-point residuals; otherwise the
error list stays empty.  Emits the statistics record (second component) and,
when the divot to-do list is exhausted, stores it under the location key
and refreshes the `"ALL"` entry. -/
def updateRegStats (solver : List (Pos × Pos) → Pos → Pos)
    (errNorm : Pos → Pos → ℚ) (s : DistState) : DistState × DStats :=
  let meas := s.measurements s.curLoc
  let errors : List ℚ :=
    if meas.length > 1 then
      let T := solver (meas.map (fun km => (km.2, s.gtPts km.1)))
      meas.map (fun km => |errNorm (T km.2) (s.gtPts km.1)|)
    else []
  let st := distStatsFn errors
  if ¬ s.divotsToDo.length > 0 then
    let reg1 := if s.curLoc ≠ "" then
        Function.update s.regStats s.curLoc (some st)
      else s.regStats
    let allErr := s.allRegErrors ++ errors
    ({ s with regStats := Function.update reg1 "ALL" (some (distStatsFn allErr)),
              allRegErrors := allErr }, st)
  else (s, st)

/-- **C7**: with fewer than two measured divots at the current location, the
registration update emits the all-zero statistics record, and the
registration is never attempted — the result does not depend on the solver
or on the norm at all. -/
theorem dist_reg_degenerate
    (solver1 solver2 : List (Pos × Pos) → Pos → Pos)
    (errNorm1 errNorm2 : Pos → Pos → ℚ) (s : DistState)
    (h : (s.measurements s.curLoc).length < 2) :
    (updateRegStats solver1 errNorm1 s).2 =
      { num := 0, mean := 0, dmin := 0, dmax := 0, std2 := 0, rms2 := 0 } ∧
    updateRegStats solver1 errNorm1 s = updateRegStats solver2 errNorm2 s := by
  have hnot : ¬ (s.measurements s.curLoc).length > 1 := by omega
  constructor
  · simp only [updateRegStats, hnot, if_neg, if_false]
    by_cases hd : ¬ s.divotsToDo.length > 0
    · simp [hd, distStatsFn]
    · simp [hd, distStatsFn]
  · simp only [updateRegStats, hnot, if_neg, if_false]

theorem dist_reg_degenerate_witness :
    ((fun (_ : String) => ([] : List (ℤ × Pos))) "CL").length < 2 ∧
    (updateRegStats (fun _ => id) (fun _ _ => 0)
      { gtPts := fun _ => ![0,0,0], curLoc := "CL",
        measurements := fun _ => [], divotsToDo := [], currLbl := 1,
        distStats := fun _ => none, regStats := fun _ => none,
        allDistErrors := [], allRegErrors := [] }).2 =
      { num := 0, mean := 0, dmin := 0, dmax := 0, std2 := 0, rms2 := 0 } := by
  refine ⟨by simp, ?_⟩
  exact (dist_reg_degenerate (fun _ => id) (fun _ => id) (fun _ _ => 0)
    (fun _ _ => 0)
    { gtPts := fun _ => ![0,0,0], curLoc := "CL",
      measurements := fun _ => [], divotsToDo := [], currLbl := 1,
      distStats := fun _ => none, regStats := fun _ => none,
      allDistErrors := [], allRegErrors := [] } (by simp)).1

/-!
## Phantom (`Phantom.py`)

`gtPts` is the insertion-ordered divot dictionary (association list);
`calGtPts` is a total map to `Option Pos` (`none` = key absent).  The
reference labels are `Option ℤ` (`None` before a geometry file provides
them).  `calibrate` invokes the external `vtkLandmarkTransform`
similarity-mode solve; the embedding passes the solver in as a function from
the (source, target) landmark pairs to the transform it returns, and the
claims constrain it by the spec's contract (least-squares similarity
registration). -/

structure Phantom where
  id : String
  modelId : Option String
  lblO : Option ℤ
  lblX : Option ℤ
  lblY : Option ℤ
  gtPts : List (ℤ × Pos)
  seq : List ℤ
  calGtPts : ℤ → Option Pos
  centralDivot : Option ℤ
  calibrated : Bool

namespace Phantom

/-- Python's `lbl in self.calGtPts` (with `None in dict` being false). -/
def refInCal (ph : Phantom) (l : Option ℤ) : Bool :=
  match l with
  | some k => (ph.calGtPts k).isSome
  | none => false

/-- `calibrate()`: when the three reference labels have been measured, solve
the similarity landmark registration from the geometric reference points to
the measured ones and apply the transform to every ground-truth divot,
setting `calibrated`.  `none` models the `KeyError` Python would raise if a
reference label were missing from `gtPts`; with the guard false the phantom
is returned unchanged. -/
def calibrate (solver : List (Pos × Pos) → Pos → Pos) (ph : Phantom) :
    Option Phantom :=
  if ph.refInCal ph.lblO ∧ ph.refInCal ph.lblX ∧ ph.refInCal ph.lblY then
    match ph.lblO, ph.lblX, ph.lblY with
    | some o, some x, some y =>
      match ph.gtPts.lookup o, ph.gtPts.lookup x, ph.gtPts.lookup y,
            ph.calGtPts o, ph.calGtPts x, ph.calGtPts y with
      | some gO, some gX, some gY, some cO, some cX, some cY =>
        let T := solver [(gO, cO), (gX, cX), (gY, cY)]
        some { ph with
          calGtPts := fun k =>
            match ph.gtPts.lookup k with
            | some pt => some (T pt)
            | none => ph.calGtPts k,
          calibrated := true }
      | _, _, _, _, _, _ => none
    | _, _, _ => none
  else
    some ph

end Phantom

/-!
### The spec's solver contract: least-squares similarity registration
-/

/-- A similarity transform: positive uniform scale, proper rotation,
translation. -/
def IsSimilarity (T : Pos → Pos) : Prop :=
  ∃ (sc : ℚ) (R : Matrix (Fin 3) (Fin 3) ℚ) (d : Pos),
    0 < sc ∧ Rᵀ * R = 1 ∧ R.det = 1 ∧ ∀ p, T p = sc • R.mulVec p + d

/-- Sum of squared residuals of a transform over landmark pairs. -/
def ssd (T : Pos → Pos) (pairs : List (Pos × Pos)) : ℚ :=
  (pairs.map (fun pr => dist2 (T pr.1) pr.2)).sum

/-- Modelled from the spec: the `vtkLandmarkTransform` similarity-mode solve
is a least-squares landmark registration — it returns a similarity transform
whose summed squared residual over the landmark pairs is minimal among all
similarity transforms.  (The solver itself is external to the repository.) -/
def LeastSquaresSimilarity (solver : List (Pos × Pos) → Pos → Pos)
    (pairs : List (Pos × Pos)) : Prop :=
  IsSimilarity (solver pairs) ∧
  ∀ T, IsSimilarity T → ssd (solver pairs) pairs ≤ ssd T pairs

theorem ssd_nonneg (T : Pos → Pos) (pairs : List (Pos × Pos)) :
    0 ≤ ssd T pairs := by
  apply List.sum_nonneg
  intro a ha
  obtain ⟨pr, _, rfl⟩ := List.mem_map.mp ha
  exact dist2_nonneg _ _

theorem translation_isSimilarity (t : Pos) :
    IsSimilarity (fun p => p + t) := by
  refine ⟨1, 1, t, one_pos, by simp, by simp, ?_⟩
  intro p
  simp [Matrix.one_mulVec]

theorem translation_ssd_zero (t : Pos) (ps : List Pos) :
    ssd (fun p => p + t) (ps.map (fun p => (p, p + t))) = 0 := by
  simp only [ssd, List.map_map]
  apply List.sum_eq_zero
  intro a ha
  obtain ⟨p, _, rfl⟩ := List.mem_map.mp ha
  simp [dist2_eq_zero_iff]

/-!
### Rigidity: an exact-fit similarity on three non-collinear points is unique
-/

theorem cross_cross_eq (a b c : Pos) :
    crossProduct a (crossProduct b c) = (a ⬝ᵥ c) • b - (a ⬝ᵥ b) • c := by
  funext i
  fin_cases i <;>
    simp [cross_apply, dotProduct, Fin.sum_univ_three, Pi.smul_apply,
      smul_eq_mul, Pi.sub_apply] <;> ring

theorem mulVec_dotProduct_mulVec (R : Matrix (Fin 3) (Fin 3) ℚ)
    (hR : Rᵀ * R = 1) (a b : Pos) :
    (R *ᵥ a) ⬝ᵥ (R *ᵥ b) = a ⬝ᵥ b := by
  rw [Matrix.dotProduct_mulVec, ← Matrix.mulVec_transpose, Matrix.mulVec_mulVec,
    hR, Matrix.one_mulVec]

theorem rows_mul_transpose (R : Matrix (Fin 3) (Fin 3) ℚ) (u v w : Pos) :
    Matrix.of ![u, v, w] * Rᵀ = Matrix.of ![R *ᵥ u, R *ᵥ v, R *ᵥ w] := by
  ext i j
  fin_cases i <;>
    simp [Matrix.mul_apply, Matrix.mulVec, dotProduct, Fin.sum_univ_three,
      Matrix.transpose_apply] <;> ring

theorem det_rows_cross (u v : Pos) :
    Matrix.det ![u, v, crossProduct u v] =
      (crossProduct u v) ⬝ᵥ (crossProduct u v) := by
  rw [← triple_product_eq_det, cross_cross_eq, cross_dot_cross]
  rw [Matrix.dotProduct_sub]
  rw [Matrix.dotProduct_smul, Matrix.dotProduct_smul]
  simp only [smul_eq_mul]
  ring

theorem det_rows_smul (u v w : Pos) (c : ℚ) :
    Matrix.det ![u, v, c • w] = c * Matrix.det ![u, v, w] := by
  rw [← triple_product_eq_det, ← triple_product_eq_det]
  rw [LinearMap.map_smul (crossProduct v) c w]
  rw [Matrix.dotProduct_smul]
  simp [smul_eq_mul]

theorem dotSelf_eq_zero_iff {u : Pos} : u ⬝ᵥ u = 0 ↔ u = 0 := by
  constructor
  · intro h
    have hsum : ∑ i, (u i) ^ 2 = 0 := by
      rw [← h]; simp [dotProduct, sq]
    funext i
    have hz := (Finset.sum_eq_zero_iff_of_nonneg
      (fun j _ => sq_nonneg (u j))).mp hsum i (Finset.mem_univ i)
    simpa using sq_eq_zero_iff.mp hz
  · rintro rfl; simp

theorem similarity_fix (sc : ℚ) (R : Matrix (Fin 3) (Fin 3) ℚ)
    (hsc : 0 < sc) (hR : Rᵀ * R = 1) (hdet : R.det = 1)
    (u v : Pos) (hu : sc • (R *ᵥ u) = u) (hv : sc • (R *ᵥ v) = v)
    (hcross : crossProduct u v ≠ 0) :
    ∀ z : Pos, sc • (R *ᵥ z) = z := by
  have hu0 : u ≠ 0 := by
    rintro rfl
    apply hcross
    simp
  have huu : u ⬝ᵥ u ≠ 0 := fun h => hu0 (dotSelf_eq_zero_iff.mp h)
  -- the scale is 1
  have hRuu : (R *ᵥ u) ⬝ᵥ (R *ᵥ u) = u ⬝ᵥ u := mulVec_dotProduct_mulVec R hR u u
  have hsq : sc ^ 2 * (u ⬝ᵥ u) = u ⬝ᵥ u := by
    have hdotu : (sc • (R *ᵥ u)) ⬝ᵥ (sc • (R *ᵥ u)) = u ⬝ᵥ u := by rw [hu]
    rw [Matrix.smul_dotProduct, Matrix.dotProduct_smul, hRuu] at hdotu
    rw [smul_eq_mul, smul_eq_mul, ← mul_assoc, ← sq] at hdotu
    exact hdotu
  have hsc1 : sc = 1 := by
    have h1 : (sc ^ 2 - 1) * (u ⬝ᵥ u) = 0 := by linarith
    rcases mul_eq_zero.mp h1 with h2 | h2
    · nlinarith
    · exact absurd h2 huu
  rw [hsc1, one_smul] at hu hv
  -- R fixes the cross product w of u and v
  set w := crossProduct u v with hwdef
  have hww : w ⬝ᵥ w ≠ 0 := fun h => hcross (dotSelf_eq_zero_iff.mp h)
  have hwu : (R *ᵥ w) ⬝ᵥ u = 0 := by
    have h1 := mulVec_dotProduct_mulVec R hR w u
    rw [hu] at h1
    rw [h1, Matrix.dotProduct_comm]
    exact dot_self_cross u v
  have hwv : (R *ᵥ w) ⬝ᵥ v = 0 := by
    have h1 := mulVec_dotProduct_mulVec R hR w v
    rw [hv] at h1
    rw [h1, Matrix.dotProduct_comm]
    exact dot_cross_self u v
  have hcross0 : crossProduct w (R *ᵥ w) = 0 := by
    have hx : crossProduct (R *ᵥ w) w =
        ((R *ᵥ w) ⬝ᵥ v) • u - ((R *ᵥ w) ⬝ᵥ u) • v := cross_cross_eq (R *ᵥ w) u v
    have hx0 : crossProduct (R *ᵥ w) w = 0 := by
      rw [hx, hwv, hwu]
      simp
    calc crossProduct w (R *ᵥ w) = -(crossProduct (R *ᵥ w) w) := by
          rw [cross_anticomm]
      _ = 0 := by rw [hx0, neg_zero]
  have hpar : (w ⬝ᵥ (R *ᵥ w)) • w - (w ⬝ᵥ w) • (R *ᵥ w) = 0 := by
    have h1 := cross_cross_eq w w (R *ᵥ w)
    rw [hcross0] at h1
    simp only [map_zero] at h1
    exact h1.symm
  have hRw : R *ᵥ w = ((w ⬝ᵥ (R *ᵥ w)) / (w ⬝ᵥ w)) • w := by
    have h2 : (w ⬝ᵥ w) • (R *ᵥ w) = (w ⬝ᵥ (R *ᵥ w)) • w := by
      have := sub_eq_zero.mp hpar
      exact this.symm
    have h3 := congrArg (fun q => ((w ⬝ᵥ w)⁻¹ : ℚ) • q) h2
    simp only [smul_smul] at h3
    rw [inv_mul_cancel₀ hww, one_smul] at h3
    rw [div_eq_mul_inv, mul_comm]
    exact h3
  set c := (w ⬝ᵥ (R *ᵥ w)) / (w ⬝ᵥ w) with hcdef
  have hnorm : (R *ᵥ w) ⬝ᵥ (R *ᵥ w) = w ⬝ᵥ w := mulVec_dotProduct_mulVec R hR w w
  have hc2 : c ^ 2 * (w ⬝ᵥ w) = w ⬝ᵥ w := by
    rw [hRw] at hnorm
    rw [Matrix.smul_dotProduct, Matrix.dotProduct_smul] at hnorm
    rw [smul_eq_mul, smul_eq_mul, ← mul_assoc, ← sq] at hnorm
    exact hnorm
  -- determinant forces c = 1
  have hRu : R *ᵥ u = u := hu
  have hRv : R *ᵥ v = v := hv
  have hM : Matrix.of ![u, v, w] * Rᵀ = Matrix.of ![u, v, c • w] := by
    rw [rows_mul_transpose, hRu, hRv, hRw]
  have hdetw : Matrix.det (Matrix.of ![u, v, w]) = w ⬝ᵥ w := det_rows_cross u v
  have hdetEq : Matrix.det (Matrix.of ![u, v, w]) =
      c * Matrix.det (Matrix.of ![u, v, w]) := by
    calc Matrix.det (Matrix.of ![u, v, w])
        = Matrix.det (Matrix.of ![u, v, w]) * R.det := by rw [hdet, mul_one]
      _ = Matrix.det (Matrix.of ![u, v, w]) * Rᵀ.det := by rw [Matrix.det_transpose]
      _ = Matrix.det (Matrix.of ![u, v, w] * Rᵀ) := (Matrix.det_mul _ _).symm
      _ = Matrix.det (Matrix.of ![u, v, c • w]) := by rw [hM]
      _ = c * Matrix.det (Matrix.of ![u, v, w]) := det_rows_smul u v w c
  have hc1 : c = 1 := by
    have h4 : (1 - c) * Matrix.det (Matrix.of ![u, v, w]) = 0 := by linarith
    rcases mul_eq_zero.mp h4 with h5 | h5
    · linarith
    · rw [hdetw] at h5
      exact absurd h5 hww
  have hRww : R *ᵥ w = w := by rw [hRw, hc1, one_smul]
  -- cancel the invertible row matrix
  have hM1 : Matrix.of ![u, v, w] * Rᵀ = Matrix.of ![u, v, w] := by
    rw [rows_mul_transpose, hRu, hRv, hRww]
  have hMdet : IsUnit (Matrix.of ![u, v, w]).det := by
    rw [hdetw]
    exact isUnit_iff_ne_zero.mpr hww
  have hRT : Rᵀ = 1 := by
    calc Rᵀ = 1 * Rᵀ := (one_mul _).symm
      _ = ((Matrix.of ![u, v, w])⁻¹ * Matrix.of ![u, v, w]) * Rᵀ := by
          rw [Matrix.nonsing_inv_mul _ hMdet]
      _ = (Matrix.of ![u, v, w])⁻¹ * (Matrix.of ![u, v, w] * Rᵀ) := by
          rw [Matrix.mul_assoc]
      _ = (Matrix.of ![u, v, w])⁻¹ * Matrix.of ![u, v, w] := by rw [hM1]
      _ = 1 := Matrix.nonsing_inv_mul _ hMdet
  have hR1 : R = 1 := by
    have h6 := congrArg Matrix.transpose hRT
    simpa using h6
  intro z
  rw [hsc1, hR1, one_smul, Matrix.one_mulVec]

/-- **C1 amended**: if the three reference labels are among the ground-truth
divots and the reference divots are *not collinear*, the measured reference
points are the ground-truth points translated by a common vector `t`, and
the solver meets the spec's least-squares similarity contract, then
`calibrate()` succeeds, sets the `calibrated` flag, and maps every
ground-truth divot `k` to `gtPts[k] + t`.  (Without the non-collinearity
condition the claim fails: see the counterexample below.) -/
theorem phantom_calibrate_translation
    (solver : List (Pos × Pos) → Pos → Pos) (ph : Phantom) (t : Pos)
    (o x y : ℤ) (gO gX gY : Pos)
    (hO : ph.lblO = some o) (hX : ph.lblX = some x) (hY : ph.lblY = some y)
    (hgO : ph.gtPts.lookup o = some gO) (hgX : ph.gtPts.lookup x = some gX)
    (hgY : ph.gtPts.lookup y = some gY)
    (hcO : ph.calGtPts o = some (gO + t)) (hcX : ph.calGtPts x = some (gX + t))
    (hcY : ph.calGtPts y = some (gY + t))
    (hnc : crossProduct (gX - gO) (gY - gO) ≠ 0)
    (hsolver : LeastSquaresSimilarity solver
      [(gO, gO + t), (gX, gX + t), (gY, gY + t)]) :
    ∃ ph', Phantom.calibrate solver ph = some ph' ∧
      ph'.calibrated = true ∧
      ∀ k pt, ph.gtPts.lookup k = some pt → ph'.calGtPts k = some (pt + t) := by
  set pairs : List (Pos × Pos) := [(gO, gO + t), (gX, gX + t), (gY, gY + t)]
    with hpairs
  set T := solver pairs with hTdef
  -- the solver's residual is zero, so it interpolates the three references
  have hssd0 : ssd T pairs = 0 := by
    have hzero : ssd (fun p => p + t) pairs = 0 := by
      have := translation_ssd_zero t [gO, gX, gY]
      simpa [hpairs] using this
    have hmin := hsolver.2 (fun p => p + t) (translation_isSimilarity t)
    have hge := ssd_nonneg T pairs
    rw [hzero] at hmin
    linarith
  have hexp : dist2 (T gO) (gO + t) + dist2 (T gX) (gX + t) +
      dist2 (T gY) (gY + t) = 0 := by
    have : ssd T pairs = dist2 (T gO) (gO + t) + dist2 (T gX) (gX + t) +
        dist2 (T gY) (gY + t) := by
      simp [ssd, hpairs]
      ring
    rw [← this, hssd0]
  have hT_O : T gO = gO + t := by
    have h1 := dist2_nonneg (T gO) (gO + t)
    have h2 := dist2_nonneg (T gX) (gX + t)
    have h3 := dist2_nonneg (T gY) (gY + t)
    exact dist2_eq_zero_iff.mp (by linarith)
  have hT_X : T gX = gX + t := by
    have h1 := dist2_nonneg (T gO) (gO + t)
    have h2 := dist2_nonneg (T gX) (gX + t)
    have h3 := dist2_nonneg (T gY) (gY + t)
    exact dist2_eq_zero_iff.mp (by linarith)
  have hT_Y : T gY = gY + t := by
    have h1 := dist2_nonneg (T gO) (gO + t)
    have h2 := dist2_nonneg (T gX) (gX + t)
    have h3 := dist2_nonneg (T gY) (gY + t)
    exact dist2_eq_zero_iff.mp (by linarith)
  -- a similarity that interpolates a pure translation on three non-collinear
  -- points is that translation everywhere
  obtain ⟨sc, R, d, hsc, hR, hdet, hT⟩ := hsolver.1
  have eO : sc • (R *ᵥ gO) = gO + t - d := by
    have h1 := hT gO
    rw [← hTdef, hT_O] at h1
    exact eq_sub_of_add_eq h1.symm
  have eX : sc • (R *ᵥ gX) = gX + t - d := by
    have h1 := hT gX
    rw [← hTdef, hT_X] at h1
    exact eq_sub_of_add_eq h1.symm
  have eY : sc • (R *ᵥ gY) = gY + t - d := by
    have h1 := hT gY
    rw [← hTdef, hT_Y] at h1
    exact eq_sub_of_add_eq h1.symm
  have hu : sc • (R *ᵥ (gX - gO)) = gX - gO := by
    rw [Matrix.mulVec_sub, smul_sub, eO, eX]
    abel
  have hv : sc • (R *ᵥ (gY - gO)) = gY - gO := by
    rw [Matrix.mulVec_sub, smul_sub, eO, eY]
    abel
  have hfix := similarity_fix sc R hsc hR hdet (gX - gO) (gY - gO) hu hv hnc
  have hd : d = t := by
    have h1 := hT gO
    rw [← hTdef, hT_O, hfix gO] at h1
    exact (add_right_inj gO).mp h1.symm
  have hTall : ∀ p, T p = p + t := by
    intro p
    have h1 := hT p
    rw [← hTdef] at h1
    rw [h1, hfix p, hd]
  -- evaluate calibrate
  have hguard : ph.refInCal ph.lblO ∧ ph.refInCal ph.lblX ∧ ph.refInCal ph.lblY := by
    refine ⟨?_, ?_, ?_⟩ <;>
      simp [Phantom.refInCal, hO, hX, hY, hcO, hcX, hcY]
  refine ⟨{ ph with
      calGtPts := fun k =>
        match ph.gtPts.lookup k with
        | some pt => some (T pt)
        | none => ph.calGtPts k,
      calibrated := true }, ?_, rfl, ?_⟩
  · have hguard2 : ph.refInCal (some o) ∧ ph.refInCal (some x) ∧
        ph.refInCal (some y) := by
      rw [← hO, ← hX, ← hY]
      exact hguard
    simp only [Phantom.calibrate, hO, hX, hY]
    rw [if_pos hguard2]
    simp only [hgO, hgX, hgY, hcO, hcX, hcY]
  · intro k pt hk
    simp only [hk, hTall pt]

/-- Witness data: a 5-divot phantom (central divot 1, references 2, 3, 4). -/
def calWitnessT : Pos := ![1, 2, 3]

def calWitnessPh : Phantom :=
  { id := "phantom", modelId := some "M", lblO := some 2, lblX := some 3,
    lblY := some 4,
    gtPts := [(1, ![0,0,0]), (2, ![1,0,0]), (3, ![0,1,0]), (4, ![0,0,1]),
      (5, ![1,1,1])],
    seq := [1, 2, 3, 4, 5],
    calGtPts := fun k =>
      if k = 2 then some (![1,0,0] + calWitnessT)
      else if k = 3 then some (![0,1,0] + calWitnessT)
      else if k = 4 then some (![0,0,1] + calWitnessT)
      else none,
    centralDivot := some 1, calibrated := false }

def calWitnessSolver : List (Pos × Pos) → Pos → Pos :=
  fun _ p => p + calWitnessT

theorem phantom_calibrate_translation_witness :
    calWitnessPh.lblO = some 2 ∧ calWitnessPh.lblX = some 3 ∧
    calWitnessPh.lblY = some 4 ∧
    calWitnessPh.gtPts.lookup 2 = some ![1,0,0] ∧
    calWitnessPh.calGtPts 2 = some (![1,0,0] + calWitnessT) ∧
    crossProduct ((![0,1,0] : Pos) - ![1,0,0]) ((![0,0,1] : Pos) - ![1,0,0]) ≠ 0 ∧
    LeastSquaresSimilarity calWitnessSolver
      [(![1,0,0], ![1,0,0] + calWitnessT), (![0,1,0], ![0,1,0] + calWitnessT),
        (![0,0,1], ![0,0,1] + calWitnessT)] ∧
    (∃ ph', Phantom.calibrate calWitnessSolver calWitnessPh = some ph' ∧
      ph'.calibrated = true ∧
      ∀ k pt, calWitnessPh.gtPts.lookup k = some pt →
        ph'.calGtPts k = some (pt + calWitnessT)) := by
  have hsolver : LeastSquaresSimilarity calWitnessSolver
      [(![1,0,0], ![1,0,0] + calWitnessT), (![0,1,0], ![0,1,0] + calWitnessT),
        (![0,0,1], ![0,0,1] + calWitnessT)] := by
    constructor
    · exact translation_isSimilarity calWitnessT
    · intro T' hT'
      have h0 : ssd (fun p => p + calWitnessT)
          [(![1,0,0], ![1,0,0] + calWitnessT), (![0,1,0], ![0,1,0] + calWitnessT),
            (![0,0,1], ![0,0,1] + calWitnessT)] = 0 := by
        have := translation_ssd_zero calWitnessT [![1,0,0], ![0,1,0], ![0,0,1]]
        simpa using this
      show ssd (fun p => p + calWitnessT) _ ≤ ssd T' _
      rw [h0]
      exact ssd_nonneg T' _
  have hnc : crossProduct ((![0,1,0] : Pos) - ![1,0,0])
      ((![0,0,1] : Pos) - ![1,0,0]) ≠ 0 := by
    intro h
    have h2 := congrFun h 2
    simp [cross_apply, Pi.sub_apply] at h2
  refine ⟨rfl, rfl, rfl, rfl, rfl, hnc, hsolver, ?_⟩
  exact phantom_calibrate_translation calWitnessSolver calWitnessPh calWitnessT
    2 3 4 ![1,0,0] ![0,1,0] ![0,0,1] rfl rfl rfl rfl rfl rfl rfl rfl rfl
    hnc hsolver

/-!
### Ground-truth file parsing (`Phantom.readGroundTruthFile`)

The file is given as its list of lines (with terminating newline characters,
as `readlines()` yields them).  Python's numeric conversions raise on bad
input (`none` here); `int()` tolerates surrounding whitespace; `float()` is
modelled for the plain decimal notation the geometry files use (scientific
notation, `inf`/`nan` are outside the modelled grammar).  The model is built
without a renderer (`rendering` disabled), so `readModel` is not invoked, as
when the phantom is constructed with `renderer = None`. -/

/-!
Character-level string primitives.  Lean core's `String.splitOn`/`split` are
defined by well-founded recursion and do not reduce in the kernel, so the
parser is built on structurally recursive functions over `String.data`
(documented against the Python operation each models). -/

/-- Split a character list at every occurrence of `sep` (Python
`str.split('=')`-style: empty fields kept). -/
def chSplit (sep : Char) : List Char → List Char → List (List Char)
  | [], acc => [acc.reverse]
  | c :: rest, acc =>
    if c = sep then acc.reverse :: chSplit sep rest []
    else chSplit sep rest (c :: acc)

/-- Split on whitespace, dropping empty fields (Python `str.split()`). -/
def chFieldsWs : List Char → List Char → List (List Char)
  | [], acc => if acc = [] then [] else [acc.reverse]
  | c :: rest, acc =>
    if c.isWhitespace then
      if acc = [] then chFieldsWs rest []
      else acc.reverse :: chFieldsWs rest []
    else chFieldsWs rest (c :: acc)

/-- Does the list start with the pattern (Python `str.startswith`)? -/
def leadsWith : List Char → List Char → Bool
  | _, [] => true
  | [], _ :: _ => false
  | c :: cs, p :: ps => c = p && leadsWith cs ps

def dropLeadWs : List Char → List Char
  | [] => []
  | c :: cs => if c.isWhitespace then dropLeadWs cs else c :: cs

/-- Python `str.strip()`. -/
def chTrim (cs : List Char) : List Char :=
  ((dropLeadWs ((dropLeadWs cs).reverse)).reverse)

def digVal (c : Char) : Option ℕ :=
  if c.isDigit then some (c.toNat - 48) else none

def chToNatAux : List Char → ℕ → Option ℕ
  | [], acc => some acc
  | c :: cs, acc =>
    match digVal c with
    | some d => chToNatAux cs (acc * 10 + d)
    | none => none

/-- Nonnegative decimal numeral. -/
def chToNat? (cs : List Char) : Option ℕ :=
  if cs = [] then none else chToNatAux cs 0

/-- Python `int(s)` body after stripping: optional sign, digits. -/
def chToInt? : List Char → Option ℤ
  | '-' :: rest => (chToNat? rest).map (fun n => -(n : ℤ))
  | '+' :: rest => (chToNat? rest).map (fun n => (n : ℤ))
  | cs => (chToNat? cs).map (fun n => (n : ℤ))

/-- Python `str.split()` as a list of strings. -/
def pySplitWs (s : String) : List String :=
  (chFieldsWs s.data []).map (fun cs => String.mk cs)

/-- Python `int(s)` (tolerates surrounding whitespace, raises → `none`). -/
def pyInt (s : String) : Option ℤ := chToInt? (chTrim s.data)

/-- Python `float(s)` on plain decimal notation (scientific notation and
`inf`/`nan` are outside the modelled geometry-file grammar). -/
def pyFloat (s : String) : Option ℚ :=
  let cs := chTrim s.data
  let sign : ℚ :=
    match cs with
    | '-' :: _ => -1
    | _ => 1
  let rest : List Char :=
    match cs with
    | '-' :: r => r
    | '+' :: r => r
    | r => r
  match chSplit '.' rest [] with
  | [ip] =>
    match chToNat? ip with
    | some n => some (sign * n)
    | none => none
  | [ip, fp] =>
    if ip = [] ∧ fp = [] then none
    else
      let ipn : Option ℕ := if ip = [] then some 0 else chToNat? ip
      let fpn : Option ℕ := if fp = [] then some 0 else chToNat? fp
      match ipn, fpn with
      | some i, some f =>
        some (sign * ((i : ℚ) + (f : ℚ) / (10 : ℚ) ^ fp.length))
      | _, _ => none
  | _ => none

/-- Python dict assignment `d[k] = v`: replace in place if the key exists,
else append (insertion order preserved). -/
def dictInsert (l : List (ℤ × Pos)) (k : ℤ) (v : Pos) : List (ℤ × Pos) :=
  match l with
  | [] => [(k, v)]
  | kv :: rest => if kv.1 = k then (k, v) :: rest else kv :: dictInsert rest k v

namespace Phantom

/-- The parameter `for l in lines` loop.  `none` = exception;
`Sum.inl ph` = early `return False` with state `ph` (REF line without exactly
three labels); `Sum.inr ph` = loop completed. -/
def paramLoop (ph : Phantom) : List String → Option (Phantom ⊕ Phantom)
  | [] => some (Sum.inr ph)
  | l :: rest =>
    if l = "\n" then paramLoop ph rest
    else
      let ss := (chSplit '=' l.data []).map (fun cs => String.mk cs)
      if leadsWith l.data "MODEL".data then
        match ss.get? 1 with
        | none => none
        | some s1 =>
          let cleaned := String.mk
            ((s1.data.filter (fun c => c ≠ ' ')).filter (fun c => c ≠ '\n'))
          paramLoop { ph with modelId := some cleaned } rest
      else if leadsWith l.data "REF".data then
        match ss.get? 1 with
        | none => none
        | some s1 =>
          let ref := pySplitWs s1
          if ref.length ≠ 3 then some (Sum.inl ph)
          else
            match ref.get? 0, ref.get? 1, ref.get? 2 with
            | some r0, some r1, some r2 =>
              match pyInt r0, pyInt r1, pyInt r2 with
              | some o, some x, some y =>
                paramLoop
                  { ph with lblO := some o, lblX := some x, lblY := some y } rest
              | _, _, _ => none
            | _, _, _ => none
      else if leadsWith l.data "SEQ".data then
        match ss.get? 1 with
        | none => none
        | some s1 =>
          match (pySplitWs s1).mapM pyInt with
          | some sq => paramLoop { ph with seq := sq } rest
          | none => none
      else if leadsWith l.data "CTR".data then
        match ss.get? 1 with
        | none => none
        | some s1 =>
          match pyInt s1 with
          | some ctr => paramLoop { ph with centralDivot := some ctr } rest
          | none => none
      else paramLoop ph rest

/-- Indices of lines starting with `POINT`. -/
def ptIds (lines : List String) : List ℕ :=
  (lines.enum.filter (fun ip => leadsWith ip.2.data "POINT".data)).map Prod.fst

/-- One `POINT` block: the label on the `POINT` line, then the x/y/z values
on the three following lines (second whitespace field of each). -/
def parsePoint (lines : List String) (p : ℕ) : Option (ℤ × Pos) := do
  let l0 ← lines.get? p
  let t0 ← (pySplitWs l0).get? 1
  let id ← pyInt t0
  let l1 ← lines.get? (p + 1)
  let t1 ← (pySplitWs l1).get? 1
  let xv ← pyFloat t1
  let l2 ← lines.get? (p + 2)
  let t2 ← (pySplitWs l2).get? 1
  let yv ← pyFloat t2
  let l3 ← lines.get? (p + 3)
  let t3 ← (pySplitWs l3).get? 1
  let zv ← pyFloat t3
  some (id, ![xv, yv, zv])

def pointLoop (lines : List String) (ph : Phantom) : List ℕ → Option Phantom
  | [] => some ph
  | p :: ps =>
    match parsePoint lines p with
    | some ipt => pointLoop lines { ph with gtPts := dictInsert ph.gtPts ipt.1 ipt.2 } ps
    | none => none

/-- Python truthiness of `not self.lblO` for an optional int (falsy when
`None` or `0`). -/
def falsyIntOpt (o : Option ℤ) : Bool :=
  match o with
  | none => true
  | some v => v = 0

/-- Keep the characters before the first occurrence of the pattern
(Python `s.split('.txt')[0]`). -/
def chBeforePat (pat : List Char) : List Char → List Char
  | [] => []
  | c :: cs => if leadsWith (c :: cs) pat then [] else c :: chBeforePat pat cs

/-- `os.path.basename(path).split('.txt')[0]`. -/
def phantomIdOfPath (path : String) : String :=
  let base : List Char :=
    match (chSplit '/' path.data []).getLast? with
    | some b => b
    | none => path.data
  String.mk (chBeforePat ".txt".data base)

/-- `readGroundTruthFile(path)`: reset `centralDivot`/`gtPts`/`seq`, run the
parameter loop (which may `return False` early), parse the `POINT` blocks,
then validate: truthy reference labels that are all known points, a sequence
of known points (defaulting to all divots when empty), and a central divot
among the points.  `some (b, ph)` is the Python return value with the
object's final state; `none` is an uncaught exception. -/
def readGroundTruthFile (ph : Phantom) (path : String) (lines : List String) :
    Option (Bool × Phantom) :=
  let ph0 : Phantom := { ph with centralDivot := some 1, gtPts := [], seq := [] }
  match paramLoop ph0 lines with
  | none => none
  | some (Sum.inl phEarly) => some (false, phEarly)
  | some (Sum.inr ph1) =>
    match pointLoop lines ph1 (ptIds lines) with
    | none => none
    | some ph2 =>
      if falsyIntOpt ph2.lblO ∨ falsyIntOpt ph2.lblX ∨ falsyIntOpt ph2.lblY then
        some (false, ph2)
      else
        match ph2.lblO, ph2.lblX, ph2.lblY with
        | some o, some x, some y =>
          if ¬ ((ph2.gtPts.lookup o).isSome ∧ (ph2.gtPts.lookup x).isSome ∧
              (ph2.gtPts.lookup y).isSome) then
            some (false, ph2)
          else if ph2.seq = [] then
            let ph3 := { ph2 with seq := ph2.gtPts.map Prod.fst }
            match ph3.centralDivot with
            | some c =>
              if (ph3.gtPts.lookup c).isSome then
                some (true, { ph3 with id := phantomIdOfPath path })
              else some (false, ph3)
            | none => some (false, ph3)
          else if ph2.seq.any (fun l => (ph2.gtPts.lookup l).isNone) then
            some (false, ph2)
          else
            match ph2.centralDivot with
            | some c =>
              if (ph2.gtPts.lookup c).isSome then
                some (true, { ph2 with id := phantomIdOfPath path })
              else some (false, ph2)
            | none => some (false, ph2)
        | _, _, _ => some (false, ph2)

end Phantom

/-- A phantom holding a previously loaded configuration. -/
def c8PriorPh : Phantom :=
  { id := "old", modelId := some "OLD", lblO := some 10, lblX := some 11,
    lblY := some 12, gtPts := [(7, ![5,5,5])], seq := [7],
    calGtPts := fun _ => none, centralDivot := some 7, calibrated := false }

/-- **C8 counterexample**: loading a file whose REF line has only two labels
reports failure (`False`) — but the prior configuration is *not* retained:
the returned state has `gtPts = []`, `seq = []` and `centralDivot = 1`,
though the prior phantom had a divot map `[(7, …)]`, sequence `[7]` and
central divot 7. -/
theorem readGT_counterexample :
    Phantom.readGroundTruthFile c8PriorPh "PH.txt" ["REF= 2 3\n"] =
      some (false,
        { c8PriorPh with centralDivot := some 1, gtPts := [], seq := [] }) ∧
    c8PriorPh.gtPts = [(7, ![5,5,5])] ∧
    ([] : List (ℤ × Pos)) ≠ [(7, ![5,5,5])] ∧
    c8PriorPh.centralDivot = some 7 ∧ some (1 : ℤ) ≠ some (7 : ℤ) ∧
    c8PriorPh.seq = [7] ∧ ([] : List ℤ) ≠ [7] := by
  refine ⟨rfl, rfl, by simp, rfl, by simp, rfl, by simp⟩

/-- **C8 amended**: an invalid configuration is reported and the load returns
`False`, but the phantom's prior configuration is *not* retained: `gtPts`,
`seq` and `centralDivot` are reset at the start of the load, and whatever the
parse reached before failing (REF labels, parsed points) overwrites the prior
values.  Both listed invalid cases — a REF line without exactly three labels,
and reference labels absent from the point map — are evaluated for every
prior state. -/
theorem readGT_invalid_not_retained (ph : Phantom) (path : String) :
    Phantom.readGroundTruthFile ph path ["REF= 2 3\n"] =
      some (false, { ph with centralDivot := some 1, gtPts := [], seq := [] }) ∧
    (∃ ph2, Phantom.readGroundTruthFile ph path
        ["REF= 2 3 4\n", "POINT 1\n", "X 0\n", "Y 0\n", "Z 0\n"] =
          some (false, ph2) ∧
      ph2.gtPts.map Prod.fst = [1] ∧ ph2.seq = [] ∧
      ph2.centralDivot = some 1 ∧ ph2.lblO = some 2 ∧
      ph2.lblX = some 3 ∧ ph2.lblY = some 4 ∧
      ph2.id = ph.id ∧ ph2.calGtPts = ph.calGtPts) :=
  ⟨rfl, ⟨_, rfl, rfl, rfl, rfl, rfl, rfl, rfl, rfl, rfl⟩⟩


/-!
### C1 counterexample: collinear reference divots

For reference divots on a line the least-squares similarity problem is
degenerate: the proper rotation `diag(1, -1, -1)` fixes the x-axis
pointwise, so for references on the x-axis measured with translation
`t = 0` it is a *zero-residual* similarity — a conforming least-squares
solver may return it.  Calibrating with it maps the off-axis divot
`(0,1,0)` to `(0,-1,0) ≠ gtPts[k] + t`, refuting the claim as stated.
-/

def c1BadR : Matrix (Fin 3) (Fin 3) ℚ := Matrix.of ![![1,0,0], ![0,-1,0], ![0,0,-1]]

/-- A solver returning the rotation `diag(1, -1, -1)` regardless of input. -/
def c1BadSolver : List (Pos × Pos) → Pos → Pos := fun _ p => ![p 0, -(p 1), -(p 2)]

theorem c1BadR_symm : c1BadRᵀ = c1BadR := by
  ext i j
  fin_cases i <;> fin_cases j <;>
    simp [c1BadR, Matrix.transpose_apply, Matrix.vecHead, Matrix.vecTail]

theorem c1BadR_orth : c1BadRᵀ * c1BadR = 1 := by
  rw [c1BadR_symm]
  ext i j
  fin_cases i <;> fin_cases j <;>
    simp [c1BadR, Matrix.mul_apply, Fin.sum_univ_three, Matrix.one_apply,
      Matrix.vecHead, Matrix.vecTail]

theorem c1BadR_det : c1BadR.det = 1 := by
  simp [c1BadR, Matrix.det_fin_three]

theorem c1BadSolver_eq (pairs : List (Pos × Pos)) (p : Pos) :
    c1BadSolver pairs p = (1 : ℚ) • c1BadR.mulVec p + 0 := by
  funext i
  fin_cases i <;>
    simp [c1BadSolver, c1BadR, Matrix.mulVec, dotProduct, Fin.sum_univ_three]

def c1CexPairs : List (Pos × Pos) :=
  [(![0,0,0], ![0,0,0] + 0), (![1,0,0], ![1,0,0] + 0), (![2,0,0], ![2,0,0] + 0)]

/-- On the collinear landmark pairs, `c1BadSolver` has zero residual, hence
meets the spec's least-squares similarity contract. -/
theorem c1BadSolver_lsq : LeastSquaresSimilarity c1BadSolver c1CexPairs := by
  constructor
  · exact ⟨1, c1BadR, 0, one_pos, c1BadR_orth, c1BadR_det, c1BadSolver_eq c1CexPairs⟩
  · intro T hT
    have h0 : ssd (c1BadSolver c1CexPairs) c1CexPairs = 0 := by
      have hself : ∀ a : Pos, dist2 a a = 0 := fun a => dist2_eq_zero_iff.mpr rfl
      have e1 : ∀ ps, c1BadSolver ps ![0,0,0] = (![0,0,0] : Pos) := by
        intro ps
        funext i
        fin_cases i <;> simp [c1BadSolver]
      have e2 : ∀ ps, c1BadSolver ps ![1,0,0] = (![1,0,0] : Pos) := by
        intro ps
        funext i
        fin_cases i <;> simp [c1BadSolver]
      have e3 : ∀ ps, c1BadSolver ps ![2,0,0] = (![2,0,0] : Pos) := by
        intro ps
        funext i
        fin_cases i <;> simp [c1BadSolver]
      simp [ssd, c1CexPairs, e1, e2, e3, hself]
    rw [h0]
    exact ssd_nonneg T c1CexPairs


/-- A phantom with collinear reference divots 2, 3, 4 on the x-axis and an
off-axis divot 1, whose references are measured exactly at their geometric
coordinates (translation `t = 0`). -/
def c1CexPh : Phantom :=
  { id := "phantom", modelId := some "M", lblO := some 2, lblX := some 3,
    lblY := some 4,
    gtPts := [(1, ![0,1,0]), (2, ![0,0,0]), (3, ![1,0,0]), (4, ![2,0,0])],
    seq := [1, 2, 3, 4],
    calGtPts := fun k =>
      if k = 2 then some (![0,0,0] + 0)
      else if k = 3 then some (![1,0,0] + 0)
      else if k = 4 then some (![2,0,0] + 0)
      else none,
    centralDivot := some 1, calibrated := false }

/-- **C1 counterexample**: all hypotheses of the claim hold at `c1CexPh` with
`t = 0` and the conforming solver `c1BadSolver`, `calibrate()` succeeds and
sets the flag — yet divot 1 is not mapped to `gtPts[1] + t`. -/
theorem phantom_calibrate_counterexample :
    LeastSquaresSimilarity c1BadSolver c1CexPairs ∧
    c1CexPh.lblO = some 2 ∧ c1CexPh.lblX = some 3 ∧ c1CexPh.lblY = some 4 ∧
    c1CexPh.gtPts.lookup 2 = some ![0,0,0] ∧
    c1CexPh.gtPts.lookup 3 = some ![1,0,0] ∧
    c1CexPh.gtPts.lookup 4 = some ![2,0,0] ∧
    c1CexPh.calGtPts 2 = some ((![0,0,0] : Pos) + 0) ∧
    c1CexPh.calGtPts 3 = some ((![1,0,0] : Pos) + 0) ∧
    c1CexPh.calGtPts 4 = some ((![2,0,0] : Pos) + 0) ∧
    c1CexPh.gtPts.lookup 1 = some ![0,1,0] ∧
    (∃ ph', Phantom.calibrate c1BadSolver c1CexPh = some ph' ∧
      ph'.calibrated = true ∧
      ph'.calGtPts 1 ≠ some ((![0,1,0] : Pos) + 0)) := by
  refine ⟨c1BadSolver_lsq, rfl, rfl, rfl, rfl, rfl, rfl, rfl, rfl, rfl, rfl, ?_⟩
  refine ⟨_, rfl, rfl, ?_⟩
  show some (c1BadSolver c1CexPairs ![0,1,0]) ≠ some ((![0,1,0] : Pos) + 0)
  intro h
  have h1 := Option.some.inj h
  have h2 := congrFun h1 1
  simp [c1BadSolver] at h2
  norm_num at h2
